import Mathlib

/-!
Verification of the logistics shipment-comparison scripts.

The Python sources (Streamlit pages) are shallowly embedded below:
pure helper functions become Lean functions over an explicit `Cell` model
of pandas cell values, and the scripts' straight-line main flows become
functions from the relevant inputs to an explicit outcome type.
`pd.to_datetime` is library code, not repository code; it is modelled as
an abstract parameter (`PdToDatetime`): a function from cells to an
optional datetime, constrained only by facts the scripts rely on
(missing values and the empty string do not parse; an actual datetime
value parses to itself).  Regular-expression operations from the source
are hand-translated into structurally recursive scanners over `List Char`
so that every definition evaluates by `decide`/`rfl`.
-/

/-- Calendar date (the result of Python `datetime.date()`). -/
structure PyDate where
  year : Nat
  month : Nat
  day : Nat
deriving DecidableEq, Repr

/-- A datetime: a calendar date plus a time-of-day component (minutes
since midnight).  Two datetimes on the same calendar day may differ in
`time`. -/
structure PyDateTime where
  date : PyDate
  time : Nat
deriving DecidableEq, Repr

/-- Model of a pandas cell value as the scripts observe it: missing
(`NaN`/`None`), a string, or a datetime value. -/
inductive Cell where
  | na : Cell
  | s (v : String) : Cell
  | dt (d : PyDateTime) : Cell
deriving DecidableEq, Repr

/-- `pd.isna` / `pd.isnull`: true exactly on missing values. -/
def pyIsNa : Cell → Bool
  | Cell.na => true
  | _ => false

/-- Characters Python `str.strip()` removes (whitespace). -/
def pyStripChars (cs : List Char) : List Char :=
  ((cs.dropWhile Char.isWhitespace).reverse.dropWhile Char.isWhitespace).reverse

/-- Python `str.strip()` on strings. -/
def pyStrip (s : String) : String := String.mk (pyStripChars s.data)

/-- Python `str.lower()` (ASCII model). -/
def pyLower (s : String) : String := String.mk (s.data.map Char.toLower)

/-- Python `str.upper()` (ASCII model). -/
def pyUpperChars (cs : List Char) : List Char := cs.map Char.toUpper

/-- Little-endian decimal digits of `n`, with explicit fuel so the
definition is structurally recursive (kernel-reducible).  Models the
digit sequence of Python `str(int)`. -/
def digitsRevAux : Nat → Nat → List Nat
  | 0, _ => []
  | _ + 1, 0 => []
  | fuel + 1, n + 1 => ((n + 1) % 10) :: digitsRevAux fuel ((n + 1) / 10)

/-- Little-endian decimal digits of `n` (empty for `0`). -/
def digitsRev (n : Nat) : List Nat := digitsRevAux n n

/-- Python `str` on a non-negative integer. -/
def pyStrNat (n : Nat) : String :=
  if n = 0 then "0"
  else String.mk ((digitsRev n).reverse.map (fun d => Char.ofNat (48 + d)))

/-- Python `int` on a list of decimal digit characters. -/
def digitsToNat (cs : List Char) : Nat :=
  cs.foldl (fun acc c => 10 * acc + (c.toNat - 48)) 0

/-- Word characters for the regex `\b` / `\w` model (ASCII
approximation of Python's default Unicode classes; the PO fields are
ASCII). -/
def isWordChar (c : Char) : Bool := c.isAlphanum || c = '_'

/-- Render a datetime the way Python `str` renders a pandas Timestamp
(`YYYY-MM-DD HH:MM:SS` is approximated; only injectivity per date/time
matters to the scripts). -/
def pyStrDateTime (d : PyDateTime) : String :=
  pyStrNat d.date.year ++ "-" ++ pyStrNat d.date.month ++ "-" ++
    pyStrNat d.date.day ++ " " ++ pyStrNat d.time

/-- Python `str` on a cell value (`str(nan) = "nan"`). -/
def strCell : Cell → String
  | Cell.na => "nan"
  | Cell.s v => v
  | Cell.dt d => pyStrDateTime d

/-- Model of `pd.to_datetime` applied to a single cell: `none` models a
raised exception (or `NaT`).  The fields constrain the model only by
facts the scripts rely on. -/
structure PdToDatetime where
  toFun : Cell → Option PyDateTime
  na_none : toFun Cell.na = none
  empty_none : toFun (Cell.s "") = none
  dt_some : ∀ d, toFun (Cell.dt d) = some d

/-- A concrete instance of the `pd.to_datetime` model: only genuine
datetime cells parse.  Used to evaluate theorems on closed inputs. -/
def simpleParse : PdToDatetime where
  toFun := fun c => match c with
    | Cell.dt d => some d
    | _ => none
  na_none := rfl
  empty_none := rfl
  dt_some := fun _ => rfl

/-! ### Maximal word-character runs (the `\b\d{6}\b` model)

`re.findall(r"\b\d{6}\b", s)` returns, in order, those maximal runs of
word characters of `s` that consist of exactly six decimal digits: a
six-digit window inside a longer word run has no word boundary at its
ends. -/

/-- Split into maximal word-character runs; `acc` is the reversed run
currently being read. -/
def wordRunsAux : List Char → List Char → List (List Char)
  | [], acc => if acc.isEmpty then [] else [acc.reverse]
  | c :: cs, acc =>
    if isWordChar c then
      wordRunsAux cs (c :: acc)
    else
      if acc.isEmpty then wordRunsAux cs []
      else acc.reverse :: wordRunsAux cs []

/-- Maximal word-character runs of a character list, in order. -/
def wordRuns (cs : List Char) : List (List Char) := wordRunsAux cs []

/-- `re.findall(r"\b\d{6}\b", s)`: the maximal word runs that are
exactly six decimal digits. -/
def sixDigitRuns (s : String) : List String :=
  ((wordRuns s.data).filter (fun r => r.length = 6 && r.all Char.isDigit)).map
    (fun r => String.mk r)

theorem wordRunsAux_mem_infix (cs : List Char) :
    ∀ (acc r : List Char), r ∈ wordRunsAux cs acc → r <:+: (acc.reverse ++ cs) := by
  induction cs with
  | nil =>
    intro acc r hr
    simp only [wordRunsAux] at hr
    split at hr
    · simp at hr
    · simp only [List.mem_singleton] at hr
      subst hr
      simp
  | cons c cs ih =>
    intro acc r hr
    simp only [wordRunsAux] at hr
    split at hr
    · have h := ih (c :: acc) r hr
      simpa using h
    · split at hr
      · rename_i hacc _
        have h := ih [] r hr
        have h2 : r <:+: (c :: cs) := h.trans (List.suffix_cons c cs).isInfix
        have : acc = [] := List.isEmpty_iff.mp (by assumption)
        subst this
        simpa using h2
      · rcases List.mem_cons.mp hr with h | h
        · subst h
          exact ⟨[], c :: cs, by simp⟩
        · have h2 := ih [] r h
          simp only [List.reverse_nil, List.nil_append] at h2
          exact h2.trans ((List.suffix_cons c cs).trans
            (List.suffix_append acc.reverse (c :: cs))).isInfix

theorem sixDigitRuns_mem (s : String) (x : String) (hx : x ∈ sixDigitRuns s) :
    x.data.length = 6 ∧ x.data.all Char.isDigit ∧ x.data <:+: s.data := by
  simp only [sixDigitRuns, List.mem_map, List.mem_filter] at hx
  obtain ⟨r, ⟨hr, hprop⟩, hmk⟩ := hx
  have hdata : x.data = r := by rw [← hmk]
  rw [hdata]
  simp only [Bool.and_eq_true, decide_eq_true_eq] at hprop
  refine ⟨hprop.1, hprop.2, ?_⟩
  simpa using wordRunsAux_mem_infix s.data [] r hr

/-! ### Properties of `pyStrNat` (Python `str(int)`) -/

theorem digitsRevAux_length_le (fuel : Nat) :
    ∀ (n k : Nat), n ≤ fuel → n < 10 ^ k → (digitsRevAux fuel n).length ≤ k := by
  induction fuel with
  | zero =>
    intro n k hn _
    interval_cases n
    simp [digitsRevAux]
  | succ fuel ih =>
    intro n k hn hk
    match n with
    | 0 => simp [digitsRevAux]
    | m + 1 =>
      have hkpos : 0 < k := by
        by_contra h
        push_neg at h
        interval_cases k
        omega
      obtain ⟨k', rfl⟩ : ∃ k', k = k' + 1 := ⟨k - 1, by omega⟩
      simp only [digitsRevAux, List.length_cons]
      have hdiv : (m + 1) / 10 < 10 ^ k' := by
        have : m + 1 < 10 ^ k' * 10 := by
          calc m + 1 < 10 ^ (k' + 1) := hk
          _ = 10 ^ k' * 10 := by ring
        omega
      have hle : (m + 1) / 10 ≤ fuel := by
        have : (m + 1) / 10 < m + 1 := Nat.div_lt_self (by omega) (by omega)
        omega
      have := ih ((m + 1) / 10) k' hle hdiv
      omega

theorem digitsRevAux_lt_ten (fuel : Nat) :
    ∀ (n : Nat), ∀ d ∈ digitsRevAux fuel n, d < 10 := by
  induction fuel with
  | zero => intro n d hd; simp [digitsRevAux] at hd
  | succ fuel ih =>
    intro n d hd
    match n with
    | 0 => simp [digitsRevAux] at hd
    | m + 1 =>
      simp only [digitsRevAux, List.mem_cons] at hd
      rcases hd with h | h
      · omega
      · exact ih _ d h

theorem digitsRevAux_ne_nil (fuel n : Nat) (hn : n ≤ fuel) (hpos : 0 < n) :
    digitsRevAux fuel n ≠ [] := by
  match fuel, n with
  | 0, n => omega
  | fuel + 1, 0 => omega
  | fuel + 1, m + 1 => simp [digitsRevAux]

theorem pyStrNat_digits (n : Nat) (hn : n < 10 ^ 6) :
    1 ≤ (pyStrNat n).data.length ∧ (pyStrNat n).data.length ≤ 6 ∧
      (pyStrNat n).data.all Char.isDigit := by
  unfold pyStrNat
  split
  · subst n
    refine ⟨by decide, by decide, by decide⟩
  · rename_i hne
    simp only [String.data]
    have hlen := digitsRevAux_length_le n n 6 (le_refl n) hn
    have hnn : digitsRev n ≠ [] := digitsRevAux_ne_nil n n (le_refl n) (by omega)
    constructor
    · simp only [List.length_map, List.length_reverse]
      have := List.length_pos.mpr hnn
      simpa [digitsRev] using this
    constructor
    · simp only [List.length_map, List.length_reverse]
      exact hlen
    · simp only [List.all_eq_true, List.mem_map, List.mem_reverse]
      rintro c ⟨d, hd, rfl⟩
      have hd10 : d < 10 := digitsRevAux_lt_ten n n d hd
      interval_cases d <;> decide

namespace Burnard

/-- `extract_po_numbers` from `burnard_shipment_check.py` (both the root
script and the multi-page variant): `re.findall(r"\b\d{6}\b", str(v))`,
with `[]` for missing values. -/
def extract_po_numbers (order_value : Cell) : List String :=
  if pyIsNa order_value then [] else sixDigitRuns (strCell order_value)

theorem extract_po_numbers_mem (v : Cell) (x : String)
    (hx : x ∈ extract_po_numbers v) :
    x.data.length = 6 ∧ x.data.all Char.isDigit := by
  unfold extract_po_numbers at hx
  split at hx
  · simp at hx
  · have := sixDigitRuns_mem _ _ hx
    exact ⟨this.1, this.2.1⟩

theorem extract_po_numbers_substring (v : Cell) (x : String)
    (hx : x ∈ extract_po_numbers v) : x.data <:+: (strCell v).data := by
  unfold extract_po_numbers at hx
  split at hx
  · simp at hx
  · exact (sixDigitRuns_mem _ _ hx).2.2

end Burnard

namespace EtaDiscrepancy

/-- Remove parenthesised content: `re.sub(r"\([^)]*\)", "", text)`.
A `(` with no later `)` has no match and is kept.  `findClose` returns
the characters after the first `)`, if any. -/
def findClose : List Char → Option (List Char)
  | [] => none
  | c :: cs => if c = ')' then some cs else findClose cs

/-- One scan of the input, dropping every `(...)` group (non-nested,
shortest close, exactly as the regex `\([^)]*\)` matches). -/
def removeParensAux : Nat → List Char → List Char
  | 0, cs => cs
  | _ + 1, [] => []
  | fuel + 1, c :: cs =>
    if c = '(' then
      match findClose cs with
      | some rest => removeParensAux fuel rest
      | none => c :: removeParensAux fuel cs
    else c :: removeParensAux fuel cs

def removeParens (cs : List Char) : List Char := removeParensAux cs.length cs

/-- Split a character list on `/` (Python `str.split("/")`). -/
def splitSlashAux : List Char → List Char → List (List Char)
  | [], acc => [acc.reverse]
  | c :: cs, acc =>
    if c = '/' then acc.reverse :: splitSlashAux cs []
    else splitSlashAux cs (c :: acc)

def splitSlash (cs : List Char) : List (List Char) := splitSlashAux cs []

/-- `re.search(r"\b(\d{6})\b", p)`: the first maximal word run that is
exactly six digits. -/
def firstSixDigitRun (cs : List Char) : Option String :=
  (((wordRuns cs).filter (fun r => r.length = 6 && r.all Char.isDigit)).map
    (fun r => String.mk r)).head?

/-- `split_bc_po_value` from `eta_discrepancy.py` (root script and page
variant): strip parenthesised content; split on `/` when present and
take the first six-digit number of each non-blank part; otherwise take
the first six-digit number of the whole cleaned text.  (`value is None`
returns `[]`; `str(None)`-like renderings contain no six-digit run, so
folding `None` into `strCell` is faithful.) -/
def split_bc_po_value (value : Cell) : List String :=
  let text := strCell value
  let cleaned := removeParens text.data
  if cleaned.contains '/' then
    let parts := (splitSlash cleaned).map pyStripChars |>.filter
      (fun p => ¬ p.isEmpty)
    parts.foldr (fun p acc =>
      match firstSixDigitRun p with
      | some m => m :: acc
      | none => acc) []
  else
    match firstSixDigitRun cleaned with
    | some m => [m]
    | none => []

theorem firstSixDigitRun_spec (cs : List Char) (x : String)
    (hx : firstSixDigitRun cs = some x) :
    x.data.length = 6 ∧ x.data.all Char.isDigit := by
  unfold firstSixDigitRun at hx
  have hmem := List.mem_of_mem_head? hx
  simp only [List.mem_map, List.mem_filter, Bool.and_eq_true,
    decide_eq_true_eq] at hmem
  obtain ⟨r, ⟨_, h6, hdig⟩, hmk⟩ := hmem
  have hdata : x.data = r := by rw [← hmk]
  rw [hdata]
  exact ⟨h6, hdig⟩

theorem foldrFirstRun_mem (ps : List (List Char)) (x : String)
    (hx : x ∈ ps.foldr (fun p acc =>
      match firstSixDigitRun p with
      | some m => m :: acc
      | none => acc) []) :
    x.data.length = 6 ∧ x.data.all Char.isDigit := by
  induction ps with
  | nil => simp at hx
  | cons p ps ih =>
    simp only [List.foldr] at hx
    cases hfs : firstSixDigitRun p with
    | none =>
      rw [hfs] at hx
      exact ih hx
    | some m =>
      rw [hfs] at hx
      rcases List.mem_cons.mp hx with h | h
      · subst h
        exact firstSixDigitRun_spec p x hfs
      · exact ih h

theorem split_bc_po_value_mem (v : Cell) (x : String)
    (hx : x ∈ split_bc_po_value v) :
    x.data.length = 6 ∧ x.data.all Char.isDigit := by
  unfold split_bc_po_value at hx
  simp only at hx
  split at hx
  · exact foldrFirstRun_mem _ x hx
  · cases hfs : firstSixDigitRun (removeParens (strCell v).data) with
    | none =>
      rw [hfs] at hx
      simp at hx
    | some m =>
      rw [hfs] at hx
      simp only [List.mem_singleton] at hx
      subst hx
      exact firstSixDigitRun_spec _ _ hfs

end EtaDiscrepancy

/-! ### Numeric facts about digit characters -/

theorem char_isDigit_bounds {c : Char} (h : c.isDigit = true) :
    c.toNat - 48 ≤ 9 ∧ 48 ≤ c.toNat := by
  unfold Char.isDigit at h
  simp only [Bool.and_eq_true, decide_eq_true_eq, ge_iff_le] at h
  obtain ⟨h1, h2⟩ := h
  rw [UInt32.le_def] at h1 h2
  rw [BitVec.le_def] at h1 h2
  simp [Char.toNat, UInt32.toNat] at h1 h2 ⊢
  omega

theorem digitsToNat_foldl_lt (cs : List Char) :
    ∀ acc : Nat, cs.all Char.isDigit →
      cs.foldl (fun a c => 10 * a + (c.toNat - 48)) acc <
        (acc + 1) * 10 ^ cs.length := by
  induction cs with
  | nil => intro acc _; simp
  | cons c cs ih =>
    intro acc hall
    simp only [List.all_cons, Bool.and_eq_true] at hall
    have hc := (char_isDigit_bounds hall.1).1
    have step := ih (10 * acc + (c.toNat - 48)) hall.2
    simp only [List.foldl_cons, List.length_cons]
    calc List.foldl (fun a c => 10 * a + (c.toNat - 48))
          (10 * acc + (c.toNat - 48)) cs
        < (10 * acc + (c.toNat - 48) + 1) * 10 ^ cs.length := step
      _ ≤ ((acc + 1) * 10) * 10 ^ cs.length :=
          Nat.mul_le_mul_right _ (by omega)
      _ = (acc + 1) * 10 ^ (cs.length + 1) := by ring

theorem digitsToNat_lt (cs : List Char) (hall : cs.all Char.isDigit) :
    digitsToNat cs < 10 ^ cs.length := by
  have := digitsToNat_foldl_lt cs 0 hall
  unfold digitsToNat
  omega

namespace ComparationTool

/-! Embedding of `extract_po_numbers` shared verbatim by
`comparation_tool.py` and `dhl_shipment_check_1.py`.  It uses a Python
`set`, so only membership in the returned list is meaningful; the
embedding keeps first-insertion order. -/

/-- Consume exactly six digit characters (`\d{6}` at the current
position). -/
def take6Digits : List Char → Option (List Char × List Char)
  | a :: b :: c :: d :: e :: f :: rest =>
    if a.isDigit && b.isDigit && c.isDigit && d.isDigit && e.isDigit && f.isDigit
    then some ([a, b, c, d, e, f], rest)
    else none
  | _ => none

theorem take6Digits_spec (cs : List Char) (p : List Char × List Char)
    (h : take6Digits cs = some p) :
    p.1.length = 6 ∧ p.1.all Char.isDigit := by
  unfold take6Digits at h
  split at h
  · split at h
    · rename_i hd
      injection h with h1
      subst h1
      simp only [Bool.and_eq_true] at hd
      obtain ⟨⟨⟨⟨⟨ha, hb⟩, hc⟩, hd'⟩, he⟩, hf⟩ := hd
      exact ⟨rfl, by simp [List.all_cons, ha, hb, hc, hd', he, hf]⟩
    · exact absurd h (by simp)
  · exact absurd h (by simp)

/-- `\s?` at the current position (consume one whitespace character if
present; a digit must follow, so greediness is forced). -/
def skipOneWs : List Char → List Char
  | c :: r => if c.isWhitespace then r else c :: r
  | [] => []

/-- Match `PO\s?(\d{6})-(\d{2})` at the current position; on success
return the two captured groups as numbers (Python `int` drops leading
zeros) and the characters after the match. -/
def tryRange : List Char → Option (Nat × Nat × List Char)
  | 'P' :: 'O' :: rest =>
    match take6Digits (skipOneWs rest) with
    | some (ds, rest2) =>
      match rest2 with
      | '-' :: e1 :: e2 :: rest3 =>
        if e1.isDigit && e2.isDigit then
          some (digitsToNat ds, digitsToNat [e1, e2], rest3)
        else none
      | _ => none
    | none => none
  | _ => none

theorem two_digit_lt (e1 e2 : Char) (h1 : e1.isDigit = true)
    (h2 : e2.isDigit = true) : digitsToNat [e1, e2] < 100 := by
  have := digitsToNat_lt [e1, e2] (by simp [h1, h2])
  simpa using this

theorem tryRange_spec (cs : List Char) (b e : Nat) (rest : List Char)
    (h : tryRange cs = some (b, e, rest)) : b < 10 ^ 6 ∧ e < 100 := by
  unfold tryRange at h
  split at h
  · rename_i rest0
    cases h6 : take6Digits (skipOneWs rest0) with
    | none => rw [h6] at h; exact absurd h (by simp)
    | some p =>
      rw [h6] at h
      obtain ⟨ds, rest2⟩ := p
      have hds := take6Digits_spec _ _ h6
      simp only at hds
      split at h
      · rename_i heq
        injection heq with heq1
        injection heq1 with hds2 hrest2
        subst hds2
        subst hrest2
        split at h
        · rw [ite_eq_iff] at h
          rcases h with ⟨hdig, h⟩ | ⟨_, h⟩
          · simp only [Bool.and_eq_true] at hdig
            injection h with h1
            injection h1 with hb h2
            injection h2 with he _
            subst hb
            subst he
            refine ⟨?_, two_digit_lt _ _ hdig.1 hdig.2⟩
            have := digitsToNat_lt ds hds.2
            rw [hds.1] at this
            exact this
          · exact absurd h (by simp)
        · exact absurd h (by simp)
      · exact absurd h (by simp)
  · exact absurd h (by simp)

/-- `re.finditer(r'PO\s?(\d{6})-(\d{2})', s)`: all non-overlapping
matches, scanned left to right (fuel-based so the definition is
structurally recursive). -/
def scanRangesAux : Nat → List Char → List (Nat × Nat)
  | 0, _ => []
  | _ + 1, [] => []
  | fuel + 1, c :: cs =>
    match tryRange (c :: cs) with
    | some (b, e, rest) => (b, e) :: scanRangesAux fuel rest
    | none => scanRangesAux fuel cs

def scanRanges (cs : List Char) : List (Nat × Nat) := scanRangesAux cs.length cs

theorem scanRangesAux_mem (fuel : Nat) :
    ∀ (cs : List Char) (b e : Nat), (b, e) ∈ scanRangesAux fuel cs →
      b < 10 ^ 6 ∧ e < 100 := by
  induction fuel with
  | zero => intro cs b e h; simp [scanRangesAux] at h
  | succ fuel ih =>
    intro cs b e h
    match cs with
    | [] => simp [scanRangesAux] at h
    | c :: cs =>
      simp only [scanRangesAux] at h
      cases htr : tryRange (c :: cs) with
      | none =>
        rw [htr] at h
        exact ih cs b e h
      | some t =>
        obtain ⟨b', e', rest⟩ := t
        rw [htr] at h
        rcases List.mem_cons.mp h with h1 | h1
        · cases h1
          exact tryRange_spec _ _ _ _ htr
        · exact ih rest b e h1

/-- Python `re.split(r'[\/,]', s)`: split on `/` and `,`. -/
def splitSepAux : List Char → List Char → List (List Char)
  | [], acc => [acc.reverse]
  | c :: cs, acc =>
    if c = '/' || c = ',' then acc.reverse :: splitSepAux cs []
    else splitSepAux cs (c :: acc)

def splitSlashComma (cs : List Char) : List (List Char) := splitSepAux cs []

/-- Match `PO[.\s]?\s?(\d{6})` at the current position, returning the
captured digits and the remaining characters.  The greedy optional
elements are resolved exactly as Python's backtracking does; the digit
group's position is unique when a match exists. -/
def tryPoDigitsRest : List Char → Option (List Char × List Char)
  | 'P' :: 'O' :: rest =>
    match rest with
    | [] => none
    | c1 :: r1 =>
      if c1 = '.' || c1.isWhitespace then
        match r1 with
        | c2 :: r2 =>
          if c2.isWhitespace then
            match take6Digits r2 with
            | some p => some p
            | none => take6Digits r1
          else take6Digits r1
        | [] => none
      else take6Digits (c1 :: r1)
  | _ => none

theorem take6_match_spec (r2 alt : List Char) (p : List Char × List Char)
    (h : (match take6Digits r2 with
          | some q => some q
          | none => take6Digits alt) = some p) :
    p.1.length = 6 ∧ p.1.all Char.isDigit := by
  cases h6 : take6Digits r2 with
  | some q =>
    rw [h6] at h
    injection h with h1
    subst h1
    exact take6Digits_spec _ _ h6
  | none =>
    rw [h6] at h
    exact take6Digits_spec _ _ h

theorem tryPoDigitsRest_spec (cs : List Char) (p : List Char × List Char)
    (h : tryPoDigitsRest cs = some p) :
    p.1.length = 6 ∧ p.1.all Char.isDigit := by
  unfold tryPoDigitsRest at h
  split at h
  · split at h
    · exact absurd h (by simp)
    · split at h
      · split at h
        · split at h
          · exact take6_match_spec _ _ _ h
          · exact take6Digits_spec _ _ h
        · exact absurd h (by simp)
      · exact take6Digits_spec _ _ h
  · exact absurd h (by simp)

/-- `re.search(r'PO[.\s]?\s?(\d{6})', s)`: leftmost match, returning
the captured digit group. -/
def poSearchAux : List Char → Option (List Char)
  | [] => none
  | c :: cs =>
    match tryPoDigitsRest (c :: cs) with
    | some p => some p.1
    | none => poSearchAux cs

theorem poSearchAux_spec (cs : List Char) (ds : List Char)
    (h : poSearchAux cs = some ds) : ds.length = 6 ∧ ds.all Char.isDigit := by
  induction cs with
  | nil => simp [poSearchAux] at h
  | cons c cs ih =>
    simp only [poSearchAux] at h
    cases ht : tryPoDigitsRest (c :: cs) with
    | some p =>
      rw [ht] at h
      cases h
      exact tryPoDigitsRest_spec _ _ ht
    | none =>
      rw [ht] at h
      exact ih h

/-- Match `PO[.\s]?\s?(\d{6})-\w+` at the current position; return the
digit group and the characters after the (greedy) word-suffix. -/
def trySuffix (cs : List Char) : Option (List Char × List Char) :=
  match tryPoDigitsRest cs with
  | some (ds, rest) =>
    match rest with
    | '-' :: w :: r =>
      if isWordChar w then some (ds, (w :: r).dropWhile isWordChar) else none
    | _ => none
  | none => none

theorem trySuffix_spec (cs : List Char) (p : List Char × List Char)
    (h : trySuffix cs = some p) : p.1.length = 6 ∧ p.1.all Char.isDigit := by
  unfold trySuffix at h
  cases ht : tryPoDigitsRest cs with
  | none => rw [ht] at h; exact absurd h (by simp)
  | some q =>
    rw [ht] at h
    obtain ⟨ds, rest⟩ := q
    have hds := tryPoDigitsRest_spec _ _ ht
    split at h
    · rename_i heq
      injection heq with h1
      injection h1 with hds2 hrest2
      subst hds2
      subst hrest2
      split at h
      all_goals first
        | (split at h
           · injection h with h1
             subst h1
             simpa using hds
           · exact absurd h (by simp))
        | exact absurd h (by simp)
    · exact absurd h (by simp)

/-- `re.finditer(r'PO[.\s]?\s?(\d{6})-\w+', s)`: all non-overlapping
matches, left to right. -/
def scanSuffixAux : Nat → List Char → List (List Char)
  | 0, _ => []
  | _ + 1, [] => []
  | fuel + 1, c :: cs =>
    match trySuffix (c :: cs) with
    | some (ds, rest) => ds :: scanSuffixAux fuel rest
    | none => scanSuffixAux fuel cs

def scanSuffix (cs : List Char) : List (List Char) := scanSuffixAux cs.length cs

theorem scanSuffixAux_mem (fuel : Nat) :
    ∀ (cs ds : List Char), ds ∈ scanSuffixAux fuel cs →
      ds.length = 6 ∧ ds.all Char.isDigit := by
  induction fuel with
  | zero => intro cs ds h; simp [scanSuffixAux] at h
  | succ fuel ih =>
    intro cs ds h
    match cs with
    | [] => simp [scanSuffixAux] at h
    | c :: cs =>
      simp only [scanSuffixAux] at h
      cases ht : trySuffix (c :: cs) with
      | none =>
        rw [ht] at h
        exact ih cs ds h
      | some p =>
        obtain ⟨ds', rest⟩ := p
        rw [ht] at h
        rcases List.mem_cons.mp h with h1 | h1
        · subst h1
          exact trySuffix_spec _ _ ht
        · exact ih rest ds h1

/-- Python `set.add` (membership view; insertion order kept). -/
def insertPo (l : List String) (x : String) : List String :=
  if x ∈ l then l else l ++ [x]

/-- The body of the range loop: for `PO<base>-<e2>`, add
`str(base - base % 100 + n)` for `n` from `base % 100` to `e2`. -/
def addRange (l : List String) (b e : Nat) : List String :=
  (List.range' (b % 100) (e + 1 - b % 100)).foldl
    (fun acc n => insertPo acc (pyStrNat (b - b % 100 + n))) l

/-- `extract_po_numbers` from `comparation_tool.py` /
`dhl_shipment_check_1.py`: non-strings yield `[]`; otherwise collect
range expansions, per-group `PO`-prefixed and lone six-digit numbers,
and suffixed `PO` numbers, as a set. -/
def extract_po_numbers (ref : Cell) : List String :=
  match ref with
  | Cell.s str =>
    let cs := str.data
    let l1 := (scanRanges cs).foldl (fun acc r => addRange acc r.1 r.2) []
    let l2 := (splitSlashComma cs).foldl (fun acc g =>
      let acc1 := match poSearchAux g with
        | some ds => insertPo acc (String.mk ds)
        | none => acc
      (sixDigitRuns (String.mk g)).foldl insertPo acc1) l1
    (scanSuffix cs).foldl (fun acc ds => insertPo acc (String.mk ds)) l2
  | _ => []

end ComparationTool

namespace ComparationTool

/-- A returned PO string: a nonempty decimal string of at most six
digits. -/
def PoOk (x : String) : Prop :=
  1 ≤ x.data.length ∧ x.data.length ≤ 6 ∧ x.data.all Char.isDigit

theorem foldl_preserve {α β : Type} (P : β → Prop) (f : β → α → β) :
    ∀ (l : List α) (init : β), P init →
      (∀ b a, a ∈ l → P b → P (f b a)) → P (l.foldl f init) := by
  intro l
  induction l with
  | nil => intro init h _; simpa using h
  | cons a l ih =>
    intro init h hstep
    simp only [List.foldl_cons]
    exact ih (f init a) (hstep init a (by simp) h)
      (fun b a' ha' hb => hstep b a' (by simp [ha']) hb)

theorem insertPo_forall (P : String → Prop) (l : List String) (x : String)
    (hl : ∀ z ∈ l, P z) (hx : P x) : ∀ z ∈ insertPo l x, P z := by
  intro z hz
  unfold insertPo at hz
  split at hz
  · exact hl z hz
  · rcases List.mem_append.mp hz with h | h
    · exact hl z h
    · simp only [List.mem_singleton] at h
      subst h
      exact hx

theorem pyStrNat_PoOk (n : Nat) (hn : n < 10 ^ 6) : PoOk (pyStrNat n) := by
  have := pyStrNat_digits n hn
  exact ⟨this.1, this.2.1, this.2.2⟩

theorem addRange_forall (l : List String) (b e : Nat) (hb : b < 10 ^ 6)
    (he : e < 100) (hl : ∀ z ∈ l, PoOk z) : ∀ z ∈ addRange l b e, PoOk z := by
  unfold addRange
  apply foldl_preserve (fun acc => ∀ z ∈ acc, PoOk z) _ _ l hl
  intro acc n hn hacc
  apply insertPo_forall _ _ _ hacc
  apply pyStrNat_PoOk
  rw [List.mem_range'] at hn
  omega

/-- Every string produced by `extract_po_numbers` is a nonempty decimal
string of at most six digits.  (The range-expansion branch can emit
fewer than six digits when the six-digit base has leading zeros; the
other branches always emit exactly six.) -/
theorem extract_po_numbers_ok (v : Cell) :
    ∀ x ∈ extract_po_numbers v, PoOk x := by
  intro x hx
  unfold extract_po_numbers at hx
  match v with
  | Cell.na => simp at hx
  | Cell.dt d => simp at hx
  | Cell.s str =>
    simp only at hx
    revert hx
    apply foldl_preserve (fun acc => ∀ z ∈ acc, PoOk z)
    · -- the state after the ranges loop and the groups loop
      apply foldl_preserve (fun acc => ∀ z ∈ acc, PoOk z)
      · -- the state after the ranges loop
        apply foldl_preserve (fun acc => ∀ z ∈ acc, PoOk z)
        · simp
        · intro acc r hr hacc
          have := scanRangesAux_mem _ _ r.1 r.2 hr
          exact addRange_forall acc r.1 r.2 this.1 this.2 hacc
      · -- one group: optional search insert, then the lone-run loop
        intro acc g hg hacc
        apply foldl_preserve (fun acc => ∀ z ∈ acc, PoOk z)
        · cases hps : poSearchAux g with
          | none => simpa [hps] using hacc
          | some ds =>
            simp only [hps]
            apply insertPo_forall _ _ _ hacc
            have := poSearchAux_spec g ds hps
            exact ⟨by simp [this.1], by simp [this.1], by simpa using this.2⟩
        · intro acc' y hy hacc'
          apply insertPo_forall _ _ _ hacc'
          have := sixDigitRuns_mem _ _ hy
          exact ⟨by omega, by omega, this.2.1⟩
    · intro acc ds hds hacc
      apply insertPo_forall _ _ _ hacc
      have := scanSuffixAux_mem _ _ _ hds
      exact ⟨by simp [this.1], by simp [this.1], by simpa using this.2⟩

end ComparationTool

/-! ### Date helpers and field normalisers (Burnard scripts, DHL script) -/

/-- Python `str.upper()` on strings (ASCII model). -/
def pyUpper (s : String) : String := String.mk (pyUpperChars s.data)

/-- Zero-pad a numeral on the left to width `n` (for `strftime`). -/
def padZero (s : String) (n : Nat) : String :=
  String.mk (List.replicate (n - s.data.length) '0' ++ s.data)

/-- `strftime("%Y-%m-%d")`. -/
def fmtDateIso (d : PyDate) : String :=
  padZero (pyStrNat d.year) 4 ++ "-" ++ padZero (pyStrNat d.month) 2 ++ "-" ++
    padZero (pyStrNat d.day) 2

namespace Burnard

/-- `normalize_eta`: missing/empty values and unparsable values map to
`None`; otherwise the parsed datetime's calendar date. -/
def normalize_eta (p : PdToDatetime) (val : Cell) : Option PyDate :=
  if pyIsNa val || (val == Cell.s "") then none
  else
    match p.toFun val with
    | some dt => some dt.date
    | none => none

/-- `format_eta_display`: empty string for missing/empty, the ISO date
for parsable values, and the original text when parsing fails. -/
def format_eta_display (p : PdToDatetime) (eta_value : Cell) : String :=
  if pyIsNa eta_value || (eta_value == Cell.s "") then ""
  else
    match p.toFun eta_value with
    | some dt => fmtDateIso dt.date
    | none => strCell eta_value

/-- `normalize_vessel` (root script variant): `re.sub(r"\s+", "", s)`
deletes every whitespace character; the final `.strip()` is then a
no-op on an already whitespace-free string. -/
def normalize_vessel (val : Cell) : String :=
  if pyIsNa val || (val == Cell.s "") then ""
  else String.mk (pyStripChars ((strCell val).data.filter (fun c => !c.isWhitespace)))

/-- Maximal digit runs (`re.findall(r"\d+", s)`), accumulator style. -/
def digitRunsAux : List Char → List Char → List (List Char)
  | [], acc => if acc.isEmpty then [] else [acc.reverse]
  | c :: cs, acc =>
    if c.isDigit then digitRunsAux cs (c :: acc)
    else
      if acc.isEmpty then digitRunsAux cs []
      else acc.reverse :: digitRunsAux cs []

def digitRuns (cs : List Char) : List (List Char) := digitRunsAux cs []

/-- `normalize_voyage` (root script variant): first digit run with
leading zeros removed, else the empty string. -/
def normalize_voyage (val : Cell) : String :=
  if pyIsNa val || (val == Cell.s "") then ""
  else
    let stripped := pyStripChars (strCell val).data
    match digitRuns stripped with
    | num :: _ => String.mk (num.dropWhile (fun c => c == '0'))
    | [] => ""

end Burnard

/-! ### Container comparison (Burnard scripts) -/

/-- Result of `normalize_container_comparison`. -/
structure ContainerInfo where
  number : String
  type : String
  display : String
deriving DecidableEq, Repr

/-- Python substring test (`a in b`), prefix-by-prefix. -/
def isPrefixCharsB : List Char → List Char → Bool
  | [], _ => true
  | _ :: _, [] => false
  | a :: as, b :: bs => a == b && isPrefixCharsB as bs

def isSubstrChars : List Char → List Char → Bool
  | as, [] => as.isEmpty
  | as, b :: bs => isPrefixCharsB as (b :: bs) || isSubstrChars as bs

/-- Match `[A-Za-z]{4}\d{7}` at the current position (the container
number of the regex, group 1). -/
def tryContainerNum : List Char → Option (List Char × List Char)
  | a :: b :: c :: d :: e1 :: e2 :: e3 :: e4 :: e5 :: e6 :: e7 :: rest =>
    if a.isAlpha && b.isAlpha && c.isAlpha && d.isAlpha &&
       e1.isDigit && e2.isDigit && e3.isDigit && e4.isDigit &&
       e5.isDigit && e6.isDigit && e7.isDigit
    then some ([a, b, c, d, e1, e2, e3, e4, e5, e6, e7], rest)
    else none
  | _ => none

/-- Leftmost `[A-Za-z]{4}\d{7}` occurrence. -/
def searchContainerNum : List Char → Option (List Char × List Char)
  | [] => none
  | c :: cs =>
    match tryContainerNum (c :: cs) with
    | some r => some r
    | none => searchContainerNum cs

/-- Group 2 of `([A-Za-z]{4}\d{7})\s*[\(]?\s*([A-Za-z0-9]*)\s*[\)]?`:
after the number skip spaces, an optional `(`, more spaces, then take
the maximal alphanumeric run (possibly empty). -/
def group2After (rest : List Char) : List Char :=
  let r1 := rest.dropWhile Char.isWhitespace
  let r2 := match r1 with
    | '(' :: t => t
    | _ => r1
  (r2.dropWhile Char.isWhitespace).takeWhile Char.isAlphanum

/-- Group 1 of `[\(]?\s*([A-Za-z0-9]+)\s*[\)]?` under `re.search`: the
first maximal alphanumeric run, if any. -/
def firstAlnumRun : List Char → Option (List Char)
  | [] => none
  | c :: cs =>
    if c.isAlphanum then some (c :: cs.takeWhile Char.isAlphanum)
    else firstAlnumRun cs

/-- The `type_mappings` dictionary, in insertion order. -/
def type_mappings : List (String × String) :=
  [("40RE", "40RE"), ("40REHC", "40RE"), ("40HC", "40HC"), ("40HCR", "40HC"),
   ("40HCRV", "40HC"), ("20GP", "20GP"), ("20RE", "20RE"), ("20RF", "20RF"),
   ("20FR", "20FR"), ("45HC", "45HC")]

/-- `normalize_container_type`: exact dictionary hit, else the first
base type contained in the given type, else unchanged. -/
def normalize_container_type (container_type : String) : String :=
  if container_type == "" then ""
  else
    let ct := pyStrip (pyUpper container_type)
    match type_mappings.find? (fun kv => kv.1 == ct) with
    | some kv => kv.2
    | none =>
      match type_mappings.find? (fun kv => isSubstrChars kv.1.data ct.data) with
      | some kv => kv.2
      | none => ct

/-- `normalize_container_comparison` from `burnard_shipment_check.py`. -/
def normalize_container_comparison (container_value : Cell) : ContainerInfo :=
  if pyIsNa container_value || (container_value == Cell.s "") then ⟨"", "", ""⟩
  else
    let container_str := pyStrip (strCell container_value)
    match searchContainerNum container_str.data with
    | some (num11, rest) =>
      let container_num := pyUpper (String.mk num11)
      let normalized_type :=
        normalize_container_type (pyUpper (String.mk (group2After rest)))
      ⟨container_num, normalized_type,
        if normalized_type == "" then container_num
        else container_num ++ "(" ++ normalized_type ++ ")"⟩
    | none =>
      match firstAlnumRun container_str.data with
      | some run =>
        if run.length ≥ 2 then
          let normalized_type := normalize_container_type (pyUpper (String.mk run))
          ⟨"", normalized_type,
            if normalized_type == "" then container_str
            else "(" ++ normalized_type ++ ")"⟩
        else ⟨"", "", container_str⟩
      | none => ⟨"", "", container_str⟩

/-- `are_containers_equal`: compare numbers when both present, then
types by equality or mutual inclusion, else the display forms. -/
def are_containers_equal (container_a container_b : Cell) : Bool :=
  let norm_a := normalize_container_comparison container_a
  let norm_b := normalize_container_comparison container_b
  if norm_a.number != "" && norm_b.number != "" && norm_a.number != norm_b.number
  then false
  else
    if norm_a.type != "" && norm_b.type != "" then
      if norm_a.type == norm_b.type then true
      else
        if isSubstrChars norm_a.type.data norm_b.type.data ||
           isSubstrChars norm_b.type.data norm_a.type.data then true
        else false
    else norm_a.display == norm_b.display

namespace Burnard

/-- `get_display_value`: ETA columns format the date, Container columns
use the normalised display, everything else is `str(value)`. -/
def get_display_value (p : PdToDatetime) (value : Cell) (col_name : String) :
    String :=
  if pyIsNa value || (value == Cell.s "") then ""
  else
    if col_name == "ETA" then format_eta_display p value
    else
      if col_name == "Container" then
        (normalize_container_comparison value).display
      else strCell value

/-- A pandas row as the script uses it: column name to cell;
`row.get(col, "")` defaults to the empty string. -/
def rowGet (row : List (String × Cell)) (col : String) : Cell :=
  match row.find? (fun kv => kv.1 == col) with
  | some kv => kv.2
  | none => Cell.s ""

/-- One iteration of the `compare_rows` column loop: the recorded
display pair when the column differs under its comparison rule. -/
def diffFor (p : PdToDatetime) (row_a row_b : List (String × Cell))
    (col : String) : Option (String × String) :=
  let val_a := rowGet row_a col
  let val_b := rowGet row_b col
  let display_a := get_display_value p val_a col
  let display_b := get_display_value p val_b col
  if col == "ETA" then
    if normalize_eta p val_a == normalize_eta p val_b then none
    else some (display_a, display_b)
  else
    if col == "Container" then
      if are_containers_equal val_a val_b then none
      else some (display_a, display_b)
    else
      if col == "Arrival Vessel" then
        if normalize_vessel val_a == normalize_vessel val_b then none
        else some (display_a, display_b)
      else
        if col == "Arrival Voyage" then
          if normalize_voyage val_a == normalize_voyage val_b then none
          else some (display_a, display_b)
        else
          if pyStrip (strCell val_a) == pyStrip (strCell val_b) then none
          else some (display_a, display_b)

/-- `compare_rows`: collect per-column differences, then apply the
behaviour rules, which keep only the ETA and Container entries (an
Arrival Vessel / Arrival Voyage difference alone yields an empty
result). -/
def compare_rows (p : PdToDatetime) (row_a row_b : List (String × Cell))
    (columns_to_compare : List String) : List (String × String × String) :=
  let differences := columns_to_compare.foldr (fun col acc =>
    match diffFor p row_a row_b col with
    | some d => (col, d) :: acc
    | none => acc) []
  let has_eta_diff := differences.any (fun e => e.1 == "ETA")
  let has_container_diff := differences.any (fun e => e.1 == "Container")
  (if has_eta_diff then differences.filter (fun e => e.1 == "ETA") else []) ++
    (if has_container_diff then
      differences.filter (fun e => e.1 == "Container") else [])

end Burnard

namespace Dhl

/-- `is_valid_date` from `dhl_shipment_check_1.py` /
`comparation_tool.py`: null is invalid, a datetime instance is valid,
anything else is valid exactly when `pd.to_datetime` succeeds. -/
def is_valid_date (p : PdToDatetime) (val : Cell) : Bool :=
  if pyIsNa val then false
  else
    match val with
    | Cell.dt _ => true
    | _ => (p.toFun val).isSome

/-- `is_same_day`: both values parse and to the same calendar date; a
parse failure makes the comparison `False` (the `except` branch). -/
def is_same_day (p : PdToDatetime) (date_a date_b : Cell) : Bool :=
  match p.toFun date_a, p.toFun date_b with
  | some d_a, some d_b => d_a.date == d_b.date
  | _, _ => false

/-- Python `!=` on cell values; two `NaN`s compare unequal. -/
def pyNe (a b : Cell) : Bool := (a != b) || (pyIsNa a && pyIsNa b)

/-- `is_container_value`: `re.match` anchors at the start, so this is a
prefix test against the five container codes. -/
def is_container_value (val : Cell) : Bool :=
  match val with
  | Cell.s str =>
    let t := pyStripChars str.data
    ["(20GP)", "(40HC)", "(20RE)", "(40RE)", "(40GP)"].any
      (fun pat => isPrefixCharsB pat.data t)
  | _ => false

/-- The `Estimated Arrival` branch of the DHL comparison loop: `true`
iff a difference is recorded for the column. -/
def dhl_eta_diff (p : PdToDatetime) (a_val b_val : Cell) : Bool :=
  if pyIsNa a_val && pyIsNa b_val then false
  else
    if is_same_day p a_val b_val then false
    else
      if pyNe a_val b_val then true else false

/-- The `Container Number` branch of the DHL comparison loop. -/
def dhl_container_diff (a_val b_val : Cell) : Bool :=
  if pyIsNa a_val && is_container_value b_val then false
  else
    if pyNe a_val b_val then true else false

end Dhl

theorem are_containers_equal_refl_aux (a : Cell) :
    are_containers_equal a a = true := by
  unfold are_containers_equal
  dsimp only
  simp only [bne_self_eq_false, Bool.and_false, Bool.false_eq_true, if_false,
    beq_self_eq_true, if_true]
  split <;> simp

theorem beq_comm_eq {α : Type} [BEq α] [LawfulBEq α] (a b : α) :
    (a == b) = (b == a) := by
  by_cases h : a = b
  · subst h; rfl
  · have h1 : (a == b) = false := beq_eq_false_iff_ne.mpr h
    have h2 : (b == a) = false := beq_eq_false_iff_ne.mpr (fun hh => h hh.symm)
    rw [h1, h2]

theorem bne_comm_eq {α : Type} [BEq α] [LawfulBEq α] (a b : α) :
    (a != b) = (b != a) := by
  simp only [bne]
  rw [beq_comm_eq a b]

theorem are_containers_equal_symm_aux (a b : Cell) :
    are_containers_equal a b = are_containers_equal b a := by
  unfold are_containers_equal
  dsimp only
  generalize normalize_container_comparison a = x
  generalize normalize_container_comparison b = y
  have hn : (x.number != "" && (y.number != "" && x.number != y.number)) =
      (y.number != "" && (x.number != "" && y.number != x.number)) := by
    rw [bne_comm_eq x.number y.number]
    cases hA : (x.number != "") <;> cases hB : (y.number != "") <;>
      simp [hA, hB]
  have ht : (x.type != "" && y.type != "") = (y.type != "" && x.type != "") :=
    Bool.and_comm _ _
  rw [Bool.and_assoc, hn, ← Bool.and_assoc, ht, beq_comm_eq x.type y.type,
    beq_comm_eq x.display y.display, Bool.or_comm]

/-! ### Characterisations of the ETA comparison -/

theorem normalize_eta_of_some (p : PdToDatetime) (v : Cell) (d : PyDateTime)
    (h : p.toFun v = some d) : Burnard.normalize_eta p v = some d.date := by
  unfold Burnard.normalize_eta
  cases v with
  | na => rw [p.na_none] at h; cases h
  | s str =>
    by_cases hs : str = ""
    · subst hs; rw [p.empty_none] at h; cases h
    · simp [pyIsNa, beq_iff_eq, hs, h]
  | dt d' => simp [pyIsNa, h]

theorem diffFor_eta_none_iff (p : PdToDatetime)
    (row_a row_b : List (String × Cell)) (da db : PyDateTime)
    (ha : p.toFun (Burnard.rowGet row_a "ETA") = some da)
    (hb : p.toFun (Burnard.rowGet row_b "ETA") = some db) :
    Burnard.diffFor p row_a row_b "ETA" = none ↔ da.date = db.date := by
  unfold Burnard.diffFor
  dsimp only
  rw [normalize_eta_of_some p _ da ha, normalize_eta_of_some p _ db hb]
  by_cases h : da.date = db.date <;> simp [h]

theorem compare_rows_eta_mem_iff (p : PdToDatetime)
    (row_a row_b : List (String × Cell)) :
    (∃ d, ("ETA", d) ∈ Burnard.compare_rows p row_a row_b ["ETA", "Container"])
      ↔ Burnard.diffFor p row_a row_b "ETA" ≠ none := by
  unfold Burnard.compare_rows
  dsimp only
  cases hE : Burnard.diffFor p row_a row_b "ETA" with
  | none =>
    cases hC : Burnard.diffFor p row_a row_b "Container" with
    | none => simp [hE, hC]
    | some c => simp [hE, hC]
  | some e =>
    cases hC : Burnard.diffFor p row_a row_b "Container" with
    | none => simp [hE, hC]
    | some c => simp [hE, hC]

/-! ### Claim C1 -/

/-- C1 (counterexample): not every string returned by the PO-extraction
functions has exactly six digits: on the cell `"PO099900-01"` the
comparison-tool/DHL `extract_po_numbers` range expansion returns the
five-digit string `"99900"` (Python `int` drops the leading zero of the
base `099900`). -/
theorem claim_C1_counterexample :
    "99900" ∈ ComparationTool.extract_po_numbers (Cell.s "PO099900-01") ∧
      ("99900" : String).data.length ≠ 6 := by
  decide

/-- C1 (amended): every string returned by `split_bc_po_value` and by
the Burnard `extract_po_numbers` consists of exactly six decimal
digits; every string returned by the comparison-tool/DHL
`extract_po_numbers` is a nonempty string of at most six decimal digits
(the range-expansion branch emits fewer than six exactly when the
six-digit base has leading zeros). -/
theorem claim_C1_po_digit_strings :
    (∀ (v : Cell) (x : String), x ∈ EtaDiscrepancy.split_bc_po_value v →
      x.data.length = 6 ∧ x.data.all Char.isDigit) ∧
    (∀ (v : Cell) (x : String), x ∈ Burnard.extract_po_numbers v →
      x.data.length = 6 ∧ x.data.all Char.isDigit) ∧
    (∀ (v : Cell) (x : String), x ∈ ComparationTool.extract_po_numbers v →
      1 ≤ x.data.length ∧ x.data.length ≤ 6 ∧ x.data.all Char.isDigit) :=
  ⟨EtaDiscrepancy.split_bc_po_value_mem, Burnard.extract_po_numbers_mem,
    fun v x hx => ComparationTool.extract_po_numbers_ok v x hx⟩

/-- C1 witness: the amended statement evaluated on concrete cells. -/
theorem claim_C1_po_digit_strings_witness :
    (("108123" : String).data.length = 6 ∧
      ("108123" : String).data.all Char.isDigit) ∧
    (1 ≤ ("99900" : String).data.length ∧ ("99900" : String).data.length ≤ 6 ∧
      ("99900" : String).data.all Char.isDigit) :=
  ⟨claim_C1_po_digit_strings.1 (Cell.s "107977(106897)/108123") "108123"
      (by decide),
    claim_C1_po_digit_strings.2.2 (Cell.s "PO099900-01") "99900" (by decide)⟩

/-! ### Claim C2 -/

/-- C2: for a matched PO whose two ETA cells both parse, the ETA
comparison depends only on the calendar date.  In the Burnard script an
`ETA` entry appears in the `compare_rows` result exactly when the two
parsed dates differ; in the DHL script the `Estimated Arrival` branch
records a difference exactly when the two parsed dates differ. -/
theorem claim_C2_eta_date_only (p : PdToDatetime)
    (row_a row_b : List (String × Cell)) (da db : PyDateTime)
    (ha : p.toFun (Burnard.rowGet row_a "ETA") = some da)
    (hb : p.toFun (Burnard.rowGet row_b "ETA") = some db)
    (a_val b_val : Cell) (ea eb : PyDateTime)
    (hc : p.toFun a_val = some ea) (hd : p.toFun b_val = some eb) :
    ((∃ d, ("ETA", d) ∈ Burnard.compare_rows p row_a row_b ["ETA", "Container"])
      ↔ da.date ≠ db.date) ∧
    (Dhl.dhl_eta_diff p a_val b_val = true ↔ ea.date ≠ eb.date) := by
  constructor
  · rw [compare_rows_eta_mem_iff]
    have h1 := diffFor_eta_none_iff p row_a row_b da db ha hb
    constructor
    · intro h2 hdd
      exact h2 (h1.mpr hdd)
    · intro h2 h3
      exact h2 (h1.mp h3)
  · have hna : pyIsNa a_val = false := by
      cases a_val with
      | na => rw [p.na_none] at hc; cases hc
      | s _ => rfl
      | dt _ => rfl
    by_cases hdd : ea.date = eb.date
    · simp [Dhl.dhl_eta_diff, Dhl.is_same_day, hc, hd, hdd, hna]
    · have hne : a_val ≠ b_val := by
        intro he
        rw [he, hd] at hc
        injection hc with hc1
        subst hc1
        exact hdd rfl
      simp [Dhl.dhl_eta_diff, Dhl.is_same_day, hc, hd, hdd, hna, Dhl.pyNe,
        bne, beq_eq_false_iff_ne, hne]

/-- C2 witness: the theorem evaluated on concrete rows; two datetimes
on the same day with different times yield no DHL difference, and dates
one day apart yield a reported Burnard ETA entry. -/
theorem claim_C2_eta_date_only_witness :
    (∃ d, ("ETA", d) ∈ Burnard.compare_rows simpleParse
      [("ETA", Cell.dt ⟨⟨2026, 2, 20⟩, 8⟩)]
      [("ETA", Cell.dt ⟨⟨2026, 2, 21⟩, 8⟩)] ["ETA", "Container"]) ∧
    Dhl.dhl_eta_diff simpleParse (Cell.dt ⟨⟨2026, 2, 20⟩, 9⟩)
      (Cell.dt ⟨⟨2026, 2, 20⟩, 23⟩) = false := by
  have h := claim_C2_eta_date_only simpleParse
    [("ETA", Cell.dt ⟨⟨2026, 2, 20⟩, 8⟩)]
    [("ETA", Cell.dt ⟨⟨2026, 2, 21⟩, 8⟩)] ⟨⟨2026, 2, 20⟩, 8⟩ ⟨⟨2026, 2, 21⟩, 8⟩
    rfl rfl (Cell.dt ⟨⟨2026, 2, 20⟩, 9⟩) (Cell.dt ⟨⟨2026, 2, 20⟩, 23⟩)
    ⟨⟨2026, 2, 20⟩, 9⟩ ⟨⟨2026, 2, 20⟩, 23⟩ rfl rfl
  refine ⟨h.1.mpr (by decide), ?_⟩
  have h2 : ¬ (Dhl.dhl_eta_diff simpleParse (Cell.dt ⟨⟨2026, 2, 20⟩, 9⟩)
      (Cell.dt ⟨⟨2026, 2, 20⟩, 23⟩) = true) := fun ht => (h.2.mp ht) (by decide)
  exact Bool.eq_false_iff.mpr h2

/-! ### Claim C3 -/

/-- Excel A row used to exhibit the vessel-discrepancy behaviour. -/
def rowVesselA : List (String × Cell) :=
  [("ETA", Cell.dt ⟨⟨2026, 3, 14⟩, 10⟩), ("Container", Cell.s "ABCD1234567 (40HC)"),
   ("Arrival Vessel", Cell.s "SHIP ONE"), ("Arrival Voyage", Cell.s "0012E")]

/-- Excel B row: same ETA date and container, different vessel and
voyage. -/
def rowVesselB : List (String × Cell) :=
  [("ETA", Cell.dt ⟨⟨2026, 3, 14⟩, 22⟩), ("Container", Cell.s "abcd1234567(40HCR)"),
   ("Arrival Vessel", Cell.s "OTHER VESSEL"), ("Arrival Voyage", Cell.s "99")]

/-- C3 (counterexample): the vessels of the two rows differ after
normalisation, yet `compare_rows` — both over the script's actual
`columns_to_compare = ["ETA", "Container"]` and even with the vessel
and voyage columns included — reports no discrepancy at all for the
matched PO. -/
theorem claim_C3_counterexample :
    Burnard.normalize_vessel (Burnard.rowGet rowVesselA "Arrival Vessel") ≠
      Burnard.normalize_vessel (Burnard.rowGet rowVesselB "Arrival Vessel") ∧
    Burnard.normalize_voyage (Burnard.rowGet rowVesselA "Arrival Voyage") ≠
      Burnard.normalize_voyage (Burnard.rowGet rowVesselB "Arrival Voyage") ∧
    Burnard.compare_rows simpleParse rowVesselA rowVesselB
      ["ETA", "Container"] = [] ∧
    Burnard.compare_rows simpleParse rowVesselA rowVesselB
      ["ETA", "Container", "Arrival Vessel", "Arrival Voyage"] = [] := by
  decide

/-- C3 (amended): `compare_rows` never reports an Arrival Vessel or
Arrival Voyage discrepancy: vessel and voyage differences are computed
in the column loop but removed by the final behaviour-rules filter, so
every reported field is `ETA` or `Container` (and the script only
passes `["ETA", "Container"]` anyway). -/
theorem claim_C3_only_eta_container (p : PdToDatetime)
    (row_a row_b : List (String × Cell)) (cols : List String)
    (col : String) (d : String × String)
    (h : (col, d) ∈ Burnard.compare_rows p row_a row_b cols) :
    col = "ETA" ∨ col = "Container" := by
  unfold Burnard.compare_rows at h
  dsimp only at h
  rcases List.mem_append.mp h with h1 | h1
  · split at h1
    · have := List.of_mem_filter h1
      left
      simpa [beq_iff_eq] using this
    · simp at h1
  · split at h1
    · have := List.of_mem_filter h1
      right
      simpa [beq_iff_eq] using this
    · simp at h1

/-- C3 witness: the amended statement evaluated on rows that differ in
ETA. -/
theorem claim_C3_only_eta_container_witness :
    ("ETA" : String) = "ETA" ∨ ("ETA" : String) = "Container" :=
  claim_C3_only_eta_container simpleParse
    [("ETA", Cell.dt ⟨⟨2026, 3, 14⟩, 0⟩)] [("ETA", Cell.dt ⟨⟨2026, 3, 15⟩, 0⟩)]
    ["ETA", "Container"] "ETA"
    ("2026-03-14", "2026-03-15") (by decide)

/-! ### Claim C7 -/

/-- C7: the date-parsing helpers are total, with the `except` branches
modelled as the parse returning `none`: `normalize_eta` always returns
a date or `None`; when the parse fails it returns `None`, and
`format_eta_display` returns the original text (the fallback branch);
`is_valid_date` returns a boolean, `false` on null input. -/
theorem claim_C7_date_helpers_total (p : PdToDatetime) (v : Cell) :
    (Burnard.normalize_eta p v = none ∨
      ∃ d, Burnard.normalize_eta p v = some d) ∧
    (p.toFun v = none → Burnard.normalize_eta p v = none ∧
      Burnard.format_eta_display p v =
        (if pyIsNa v || (v == Cell.s "") then "" else strCell v)) ∧
    (Dhl.is_valid_date p v = true ∨ Dhl.is_valid_date p v = false) ∧
    (pyIsNa v = true → Dhl.is_valid_date p v = false) := by
  refine ⟨?_, ?_, ?_, ?_⟩
  · cases h : Burnard.normalize_eta p v with
    | none => exact Or.inl rfl
    | some d => exact Or.inr ⟨d, rfl⟩
  · intro hp
    constructor
    · unfold Burnard.normalize_eta
      split
      · rfl
      · rw [hp]
    · unfold Burnard.format_eta_display
      split
      · rfl
      · rw [hp]
  · cases h : Dhl.is_valid_date p v with
    | true => exact Or.inl rfl
    | false => exact Or.inr rfl
  · intro hna
    unfold Dhl.is_valid_date
    rw [if_pos hna]

/-- C7 witness: the theorem evaluated at a string that does not parse
and at a missing value. -/
theorem claim_C7_date_helpers_total_witness :
    Burnard.normalize_eta simpleParse (Cell.s "not a date") = none ∧
    Burnard.format_eta_display simpleParse (Cell.s "not a date") =
      "not a date" ∧
    Dhl.is_valid_date simpleParse Cell.na = false := by
  have h1 := claim_C7_date_helpers_total simpleParse (Cell.s "not a date")
  have h2 := claim_C7_date_helpers_total simpleParse Cell.na
  refine ⟨(h1.2.1 rfl).1, ?_, h2.2.2.2 rfl⟩
  have := (h1.2.1 rfl).2
  simpa using this

/-! ### Claim C9 -/

/-- C9: `are_containers_equal` is reflexive and symmetric on arbitrary
cell values. -/
theorem claim_C9_containers_refl_symm :
    (∀ a : Cell, are_containers_equal a a = true) ∧
    (∀ a b : Cell, are_containers_equal a b = are_containers_equal b a) :=
  ⟨are_containers_equal_refl_aux, are_containers_equal_symm_aux⟩

/-! ### Claim C10 — `normalize_vessel` of the multi-page Burnard variant -/

namespace BurnardPages

/-- Characters collapsed by `re.sub(r'[\s\-_]+', ' ', s)`. -/
def isSepChar (c : Char) : Bool := c.isWhitespace || c = '-' || c = '_'

/-- Collapse every run of separator characters to a single space; the
flag records whether the previous character was part of a run. -/
def collapseSepAux : Bool → List Char → List Char
  | _, [] => []
  | inSep, c :: cs =>
    if isSepChar c then
      if inSep then collapseSepAux true cs
      else ' ' :: collapseSepAux true cs
    else c :: collapseSepAux false cs

def collapseSep (cs : List Char) : List Char := collapseSepAux false cs

/-- Match `MV\s+` at the current position (for `\bMV\s+`). -/
def matchMVAt : List Char → Option (List Char)
  | 'M' :: 'V' :: c :: rest =>
    if c.isWhitespace then some (rest.dropWhile Char.isWhitespace) else none
  | _ => none

/-- Match `V\.\s*` at the current position (for `\bV\.\s*`). -/
def matchVdotAt : List Char → Option (List Char)
  | 'V' :: '.' :: rest => some (rest.dropWhile Char.isWhitespace)
  | _ => none

/-- `re.sub` of a word-boundary-anchored pattern with the empty string:
scan left to right, trying the matcher only at word boundaries; every
span the matcher consumes ends in a non-word character, so scanning
resumes at a boundary. -/
def subScanAux (m : List Char → Option (List Char)) :
    Nat → Bool → List Char → List Char
  | 0, _, cs => cs
  | _ + 1, _, [] => []
  | fuel + 1, bdry, c :: cs =>
    if bdry then
      match m (c :: cs) with
      | some rest => subScanAux m fuel true rest
      | none => c :: subScanAux m fuel (!(isWordChar c)) cs
    else c :: subScanAux m fuel (!(isWordChar c)) cs

def subScan (m : List Char → Option (List Char)) (cs : List Char) : List Char :=
  subScanAux m cs.length true cs

/-- `re.sub(r'\s+WORD$', '', s)`: drop a final occurrence of `word`
directly preceded by at least one whitespace character (greedy over the
whole whitespace run). -/
def removeSuffixWord (word cs : List Char) : List Char :=
  let r := cs.reverse
  if isPrefixCharsB word.reverse r then
    match r.drop word.length with
    | c :: rest =>
      if c.isWhitespace then ((c :: rest).dropWhile Char.isWhitespace).reverse
      else cs
    | [] => cs
  else cs

/-- Python `str.replace(old, new)`: replace all non-overlapping
occurrences, scanning left to right. -/
def pyReplaceAux (old new : List Char) : Nat → List Char → List Char
  | 0, cs => cs
  | _ + 1, [] => []
  | fuel + 1, c :: cs =>
    if isPrefixCharsB old (c :: cs) then
      new ++ pyReplaceAux old new fuel ((c :: cs).drop old.length)
    else c :: pyReplaceAux old new fuel cs

def pyReplace (s old new : String) : String :=
  String.mk (pyReplaceAux old.data new.data s.data.length s.data)

/-- The `vessel_replacements` dictionary, in insertion order. -/
def vessel_replacements : List (String × String) :=
  [("CMA CGM", "CMACGM"), ("MAERSK LINE", "MAERSK"),
   ("EVERGREEN LINE", "EVERGREEN"), ("COSCO SHIPPING", "COSCO"),
   ("HAPAG LLOYD", "HAPAG-LLOYD"), ("ONE LINE", "ONE"),
   ("OOCL LIMITED", "OOCL"), ("YANG MING", "YANGMING")]

/-- The stages of `normalize_vessel`, split out so fixed-point facts
about individual stages can be stated. -/
def vesselStage1 (s : String) : String := pyUpper (pyStrip s)

def vesselStage2 (s : String) : String := pyStrip (String.mk (collapseSep s.data))

def vesselStage3 (s : String) : String := String.mk (subScan matchMVAt s.data)

def vesselStage4 (s : String) : String := String.mk (subScan matchVdotAt s.data)

def vesselStage5 (s : String) : String :=
  String.mk (removeSuffixWord "EXPRESS".data s.data)

def vesselStage6 (s : String) : String :=
  String.mk (removeSuffixWord "SERVICE".data s.data)

def vesselStage7 (s : String) : String :=
  vessel_replacements.foldl (fun acc kv => pyReplace acc kv.1 kv.2) s

/-- `normalize_vessel` from `pages/burnard_shipment_check.py`: strip
and uppercase, collapse separators, remove `MV` / `V.` prefixes and
`EXPRESS` / `SERVICE` suffixes, then apply the replacement table. -/
def normalize_vessel (vessel_value : Cell) : String :=
  if pyIsNa vessel_value || (vessel_value == Cell.s "") then ""
  else
    vesselStage7 (vesselStage6 (vesselStage5 (vesselStage4 (vesselStage3
      (vesselStage2 (vesselStage1 (strCell vessel_value)))))))

end BurnardPages

/-- C10 (counterexample): `normalize_vessel` is not idempotent: on
`"A EXPRESS EXPRESS"` one application removes one `EXPRESS` suffix
(yielding `"A EXPRESS"`), and a second application removes another. -/
theorem claim_C10_counterexample :
    BurnardPages.normalize_vessel
        (Cell.s (BurnardPages.normalize_vessel (Cell.s "A EXPRESS EXPRESS"))) ≠
      BurnardPages.normalize_vessel (Cell.s "A EXPRESS EXPRESS") := by
  decide

/-- C10 (amended): `normalize_vessel` is idempotent on every input
whose normalised form is left unchanged by each of its internal stages
(strip/uppercase, separator collapsing, `MV` / `V.` removal,
`EXPRESS` / `SERVICE` suffix removal, and the replacement table); in
general it is not idempotent (repeated `EXPRESS` / `SERVICE` suffixes
are removed one per application). -/
theorem claim_C10_idempotent_on_stage_fixed (v : Cell)
    (h1 : BurnardPages.vesselStage1 (BurnardPages.normalize_vessel v) =
      BurnardPages.normalize_vessel v)
    (h2 : BurnardPages.vesselStage2 (BurnardPages.normalize_vessel v) =
      BurnardPages.normalize_vessel v)
    (h3 : BurnardPages.vesselStage3 (BurnardPages.normalize_vessel v) =
      BurnardPages.normalize_vessel v)
    (h4 : BurnardPages.vesselStage4 (BurnardPages.normalize_vessel v) =
      BurnardPages.normalize_vessel v)
    (h5 : BurnardPages.vesselStage5 (BurnardPages.normalize_vessel v) =
      BurnardPages.normalize_vessel v)
    (h6 : BurnardPages.vesselStage6 (BurnardPages.normalize_vessel v) =
      BurnardPages.normalize_vessel v)
    (h7 : BurnardPages.vesselStage7 (BurnardPages.normalize_vessel v) =
      BurnardPages.normalize_vessel v) :
    BurnardPages.normalize_vessel (Cell.s (BurnardPages.normalize_vessel v)) =
      BurnardPages.normalize_vessel v := by
  by_cases hy : BurnardPages.normalize_vessel v = ""
  · rw [hy]
    rfl
  · conv_lhs => rw [BurnardPages.normalize_vessel]
    have hguard : (pyIsNa (Cell.s (BurnardPages.normalize_vessel v)) ||
        (Cell.s (BurnardPages.normalize_vessel v) == Cell.s "")) = false := by
      simp [pyIsNa, beq_iff_eq, hy]
    rw [hguard]
    simp only [Bool.false_eq_true, if_false]
    rw [show strCell (Cell.s (BurnardPages.normalize_vessel v)) =
      BurnardPages.normalize_vessel v from rfl]
    rw [h1, h2, h3, h4, h5, h6, h7]

/-- C10 witness: a concrete vessel name whose normal form is fixed by
every stage, so the amended idempotence applies. -/
theorem claim_C10_idempotent_witness :
    BurnardPages.normalize_vessel
        (Cell.s (BurnardPages.normalize_vessel (Cell.s "maersk star"))) =
      BurnardPages.normalize_vessel (Cell.s "maersk star") :=
  claim_C10_idempotent_on_stage_fixed (Cell.s "maersk star")
    (by decide) (by decide) (by decide) (by decide) (by decide) (by decide)
    (by decide)

/-! ### Burnard main flow (header detection, column mapping, matching) -/

namespace Burnard

/-- The body of `detect_header_row`'s membership test: every keyword
occurs verbatim among the stringified, stripped cells of the row. -/
def headerRowPred (keywords : List String) (row : List Cell) : Bool :=
  keywords.all (fun kw => (row.map (fun c => pyStrip (strCell c))).contains kw)

/-- The `for i in range(min(20, len(df)))` loop of `detect_header_row`,
with the running index made explicit. -/
def detect_header_row_aux (keywords : List String) :
    Nat → List (List Cell) → Option Nat
  | _, [] => none
  | i, r :: rs =>
    if 20 ≤ i then none
    else
      if headerRowPred keywords r then some i
      else detect_header_row_aux keywords (i + 1) rs

/-- `detect_header_row`: the smallest row index among the first
`min 20 (len df)` rows whose cells contain every keyword. -/
def detect_header_row (df : List (List Cell)) (keywords : List String) :
    Option Nat :=
  detect_header_row_aux keywords 0 df

/-- Python substring test on strings. -/
def pySub (pat s : String) : Bool := isSubstrChars pat.data s.data

/-- The column-mapping cascade of the Burnard script: which canonical
column a raw Excel-B column name is mapped to, if any. -/
def targetFor (col : String) : Option String :=
  let cl := pyLower (pyStrip col)
  if pySub "bc po" cl || pySub "bcpo" cl || (pySub "po" cl && pySub "bc" cl) then
    some "BC PO"
  else
    if pySub "estimated arrival" cl || pySub "eta" cl then some "ETA"
    else
      if pySub "container" cl then some "Container"
      else
        if pySub "arrival vessel" cl ||
           (pySub "vessel" cl && pySub "arrival" cl) then some "Arrival Vessel"
        else
          if pySub "arrival voyage" cl ||
             (pySub "voyage" cl && pySub "arrival" cl) then some "Arrival Voyage"
          else
            if pySub "supplier" cl then some "Supplier" else none

/-- The `(canonical, original)` column pairs of `df_b_final`, built in
order with the duplicate-avoidance check. -/
def mappedPairs (existing : List String) : List (String × String) :=
  existing.foldl (fun acc col =>
    match targetFor col with
    | some tgt =>
      if acc.any (fun kv => kv.1 == tgt) then acc else acc ++ [(tgt, col)]
    | none => acc) []

/-- `required_columns` and the missing-column computation. -/
def missingColumnsOf (existing : List String) : List String :=
  ["BC PO", "ETA", "Container"].filter
    (fun c => !((mappedPairs existing).any (fun kv => kv.1 == c)))

/-- `df_a["ETA"] = pd.to_datetime(..., errors="coerce")` followed by
`dropna(subset=["ETA"])`: keep rows whose ETA parses and substitute the
parsed timestamp. -/
def cleanEtaRows (p : PdToDatetime) (rows : List (List (String × Cell))) :
    List (List (String × Cell)) :=
  rows.foldr (fun row acc =>
    match p.toFun (rowGet row "ETA") with
    | some d =>
      (row.map (fun kv => if kv.1 == "ETA" then (kv.1, Cell.dt d) else kv)) :: acc
    | none => acc) []

/-- Dictionary insertion (`po_map_a[po] = row`): later assignments
overwrite, first-insertion order is kept. -/
def upsert (m : List (String × List (String × Cell))) (k : String)
    (v : List (String × Cell)) : List (String × List (String × Cell)) :=
  if m.any (fun kv => kv.1 == k) then
    m.map (fun kv => if kv.1 == k then (k, v) else kv)
  else m ++ [(k, v)]

/-- `po_map_a`: iterate the cleaned Excel-A rows and map every
extracted PO to its row (the last row wins). -/
def build_po_map (rows : List (List (String × Cell))) :
    List (String × List (String × Cell)) :=
  rows.foldl (fun m row =>
    (extract_po_numbers (rowGet row "Order #")).foldl
      (fun m po => upsert m po row) m) []

/-- `po_set_b`: the union of the POs extracted from every `BC PO` cell
of `df_b_final` (a Python set; membership is what matters). -/
def po_set_b (rows : List (List (String × Cell))) : List String :=
  rows.foldl (fun s row =>
    (extract_po_numbers (rowGet row "BC PO")).foldl ComparationTool.insertPo s)
    []

/-- Result of the matching loop.  `compared_pos` is a trace of the POs
for which the then-branch ran `compare_rows` (it is not part of the
script's output; the theorems use it to speak about a comparison having
happened). -/
structure MatchResult where
  matched_differences : List (String × List (String × String × String))
  unmatched_pos : List String
  compared_pos : List String
deriving DecidableEq, Repr

/-- One iteration of the matching loop over `po_map_a.items()`. -/
def match_step (p : PdToDatetime) (df_b_final : List (List (String × Cell)))
    (po_set : List String) (res : MatchResult)
    (entry : String × List (String × Cell)) : MatchResult :=
  let po := entry.1
  let row_a := entry.2
  if po ∈ po_set then
    match df_b_final.filter
        (fun row_b => isSubstrChars po.data (strCell (rowGet row_b "BC PO")).data)
      with
    | row_b :: _ =>
      let differences := compare_rows p row_a row_b ["ETA", "Container"]
      { matched_differences :=
          if differences.isEmpty then res.matched_differences
          else res.matched_differences ++ [(po, differences)],
        unmatched_pos := res.unmatched_pos,
        compared_pos := res.compared_pos ++ [po] }
    | [] => res
  else
    { matched_differences := res.matched_differences,
      unmatched_pos := res.unmatched_pos ++ [po],
      compared_pos := res.compared_pos }

/-- The matching loop over `po_map_a.items()`. -/
def match_loop (p : PdToDatetime)
    (po_map_a : List (String × List (String × Cell)))
    (df_b_final : List (List (String × Cell))) (po_set : List String) :
    MatchResult :=
  po_map_a.foldl (match_step p df_b_final po_set) ⟨[], [], []⟩

/-- Outcome of the Burnard script run (after both uploads). -/
inductive Outcome where
  | missingColumns (missing : List String)
  | headerNotFound
  | report (matched : List (String × List (String × String × String)))
      (unmatched : List String)
deriving DecidableEq, Repr

/-- The straight-line main flow of `burnard_shipment_check.py` given
the Excel-B column names and rows and the raw Excel-A rows: map
columns, stop on missing required columns, detect the header row, stop
when none is found, then clean, extract, join and compare. -/
def burnard_main (p : PdToDatetime) (df_b_cols : List String)
    (df_b_rows : List (List (String × Cell)))
    (df_a_raw : List (List Cell)) : Outcome :=
  let missing := missingColumnsOf df_b_cols
  if missing.isEmpty then
    match detect_header_row df_a_raw ["Order #", "Supplier"] with
    | none => Outcome.headerNotFound
    | some idx =>
      let cols := match df_a_raw[idx]? with
        | some row => row.map strCell
        | none => []
      let df_a := (df_a_raw.drop (idx + 1)).map (fun row => cols.zip row)
      let df_a_clean := cleanEtaRows p df_a
      let df_b_final := df_b_rows.map (fun row =>
        (mappedPairs df_b_cols).map (fun ts => (ts.1, rowGet row ts.2)))
      let res := match_loop p (build_po_map df_a_clean) df_b_final
        (po_set_b df_b_final)
      Outcome.report res.matched_differences res.unmatched_pos
  else Outcome.missingColumns missing

end Burnard

/-! ### Claim C4 — the matched/unmatched partition -/

theorem insertPo_mem_iff (l : List String) (x y : String) :
    y ∈ ComparationTool.insertPo l x ↔ y ∈ l ∨ y = x := by
  unfold ComparationTool.insertPo
  split
  · rename_i hx
    constructor
    · exact Or.inl
    · rintro (h | rfl)
      · exact h
      · exact hx
  · simp

theorem foldl_insertPo_mem (ps : List String) :
    ∀ (acc : List String) (y : String),
      y ∈ ps.foldl ComparationTool.insertPo acc ↔ y ∈ acc ∨ y ∈ ps := by
  induction ps with
  | nil => intro acc y; simp
  | cons q ps ih =>
    intro acc y
    simp only [List.foldl_cons]
    rw [ih (ComparationTool.insertPo acc q) y, insertPo_mem_iff]
    simp only [List.mem_cons]
    tauto

theorem po_set_b_spec (rows : List (List (String × Cell))) (po : String) :
    po ∈ Burnard.po_set_b rows ↔
      ∃ row ∈ rows, po ∈ Burnard.extract_po_numbers (Burnard.rowGet row "BC PO") := by
  unfold Burnard.po_set_b
  suffices h : ∀ (acc : List String),
      po ∈ rows.foldl (fun s row =>
        (Burnard.extract_po_numbers (Burnard.rowGet row "BC PO")).foldl
          ComparationTool.insertPo s) acc ↔
      po ∈ acc ∨ ∃ row ∈ rows,
        po ∈ Burnard.extract_po_numbers (Burnard.rowGet row "BC PO") by
    rw [h []]
    simp
  induction rows with
  | nil => intro acc; simp
  | cons row rows ih =>
    intro acc
    simp only [List.foldl_cons]
    rw [ih, foldl_insertPo_mem]
    constructor
    · rintro ((h | h) | ⟨r, hr, hpo⟩)
      · exact Or.inl h
      · exact Or.inr ⟨row, by simp, h⟩
      · exact Or.inr ⟨r, by simp [hr], hpo⟩
    · rintro (h | ⟨r, hr, hpo⟩)
      · exact Or.inl (Or.inl h)
      · rcases List.mem_cons.mp hr with rfl | hr2
        · exact Or.inl (Or.inr hpo)
        · exact Or.inr ⟨r, hr2, hpo⟩

theorem isPrefixCharsB_iff (a : List Char) :
    ∀ b : List Char, isPrefixCharsB a b = true ↔ a <+: b := by
  induction a with
  | nil => intro b; simp [isPrefixCharsB]
  | cons x xs ih =>
    intro b
    cases b with
    | nil => simp [isPrefixCharsB]
    | cons y ys =>
      simp only [isPrefixCharsB, Bool.and_eq_true, beq_iff_eq,
        List.cons_prefix_cons, ih]

theorem isSubstrChars_iff (a : List Char) :
    ∀ b : List Char, isSubstrChars a b = true ↔ a <:+: b := by
  intro b
  induction b with
  | nil =>
    simp [isSubstrChars, List.isEmpty_iff]
  | cons y ys ih =>
    simp only [isSubstrChars, Bool.or_eq_true, isPrefixCharsB_iff, ih,
      List.infix_cons_iff]

theorem match_loop_fold_mem (p : PdToDatetime)
    (df_b_final : List (List (String × Cell))) (po_set : List String)
    (hf : ∀ po ∈ po_set, df_b_final.filter (fun row_b =>
      isSubstrChars po.data (strCell (Burnard.rowGet row_b "BC PO")).data) ≠ []) :
    ∀ (pm : List (String × List (String × Cell)))
      (acc : Burnard.MatchResult) (po : String),
      (po ∈ (pm.foldl (Burnard.match_step p df_b_final po_set) acc).compared_pos
        ↔ po ∈ acc.compared_pos ∨ (po ∈ pm.map Prod.fst ∧ po ∈ po_set)) ∧
      (po ∈ (pm.foldl (Burnard.match_step p df_b_final po_set) acc).unmatched_pos
        ↔ po ∈ acc.unmatched_pos ∨ (po ∈ pm.map Prod.fst ∧ po ∉ po_set)) ∧
      (po ∈ ((pm.foldl (Burnard.match_step p df_b_final po_set)
          acc).matched_differences).map Prod.fst →
        po ∈ acc.matched_differences.map Prod.fst ∨
          (po ∈ pm.map Prod.fst ∧ po ∈ po_set)) := by
  intro pm
  induction pm with
  | nil => intro acc po; simp
  | cons entry pm ih =>
    intro acc po
    obtain ⟨q, row_a⟩ := entry
    simp only [List.foldl_cons]
    have hstep : ∀ acc', acc' = Burnard.match_step p df_b_final po_set acc (q, row_a) →
        (acc'.compared_pos = if q ∈ po_set then acc.compared_pos ++ [q]
          else acc.compared_pos) ∧
        (acc'.unmatched_pos = if q ∈ po_set then acc.unmatched_pos
          else acc.unmatched_pos ++ [q]) ∧
        (∀ z, z ∈ acc'.matched_differences.map Prod.fst →
          z ∈ acc.matched_differences.map Prod.fst ∨ (z = q ∧ q ∈ po_set)) := by
      intro acc' hacc'
      unfold Burnard.match_step at hacc'
      dsimp only at hacc'
      by_cases hq : q ∈ po_set
      · rw [if_pos hq] at hacc'
        cases hfil : df_b_final.filter (fun row_b =>
            isSubstrChars q.data (strCell (Burnard.rowGet row_b "BC PO")).data) with
        | nil => exact absurd hfil (hf q hq)
        | cons rb rbs =>
          rw [hfil] at hacc'
          subst hacc'
          refine ⟨by simp [hq], by simp [hq], ?_⟩
          intro z hz
          dsimp only at hz
          split at hz
          · exact Or.inl hz
          · rw [List.map_append] at hz
            rcases List.mem_append.mp hz with h1 | h1
            · exact Or.inl h1
            · simp only [List.map_cons, List.map_nil, List.mem_singleton] at h1
              exact Or.inr ⟨h1, hq⟩
      · rw [if_neg hq] at hacc'
        subst hacc'
        exact ⟨by simp [hq], by simp [hq], fun z hz => Or.inl hz⟩
    obtain ⟨hc, hu, hm⟩ := hstep _ rfl
    obtain ⟨ihc, ihu, ihm⟩ := ih (Burnard.match_step p df_b_final po_set acc (q, row_a)) po
    refine ⟨?_, ?_, ?_⟩
    · rw [ihc, hc]
      by_cases hq : q ∈ po_set
      · simp only [if_pos hq, List.mem_append, List.map_cons, List.mem_cons]
        constructor
        · rintro ((h | (rfl | hnil)) | ⟨h1, h2⟩)
          · exact Or.inl h
          · exact Or.inr ⟨Or.inl rfl, hq⟩
          · exact absurd hnil (by simp)
          · exact Or.inr ⟨Or.inr h1, h2⟩
        · rintro (h | ⟨(rfl | h1), h2⟩)
          · exact Or.inl (Or.inl h)
          · exact Or.inl (Or.inr (Or.inl rfl))
          · exact Or.inr ⟨h1, h2⟩
      · simp only [if_neg hq, List.map_cons, List.mem_cons]
        constructor
        · rintro (h | ⟨h1, h2⟩)
          · exact Or.inl h
          · exact Or.inr ⟨Or.inr h1, h2⟩
        · rintro (h | ⟨(rfl | h1), h2⟩)
          · exact Or.inl h
          · exact absurd h2 hq
          · exact Or.inr ⟨h1, h2⟩
    · rw [ihu, hu]
      by_cases hq : q ∈ po_set
      · simp only [if_pos hq, List.map_cons, List.mem_cons]
        constructor
        · rintro (h | ⟨h1, h2⟩)
          · exact Or.inl h
          · exact Or.inr ⟨Or.inr h1, h2⟩
        · rintro (h | ⟨(rfl | h1), h2⟩)
          · exact Or.inl h
          · exact absurd hq h2
          · exact Or.inr ⟨h1, h2⟩
      · simp only [if_neg hq, List.mem_append, List.map_cons, List.mem_cons]
        constructor
        · rintro ((h | (rfl | hnil)) | ⟨h1, h2⟩)
          · exact Or.inl h
          · exact Or.inr ⟨Or.inl rfl, hq⟩
          · exact absurd hnil (by simp)
          · exact Or.inr ⟨Or.inr h1, h2⟩
        · rintro (h | ⟨(rfl | h1), h2⟩)
          · exact Or.inl (Or.inl h)
          · exact Or.inl (Or.inr (Or.inl rfl))
          · exact Or.inr ⟨h1, h2⟩
    · intro hz
      rcases ihm hz with h | ⟨h1, h2⟩
      · rcases hm po h with h3 | ⟨rfl, h4⟩
        · exact Or.inl h3
        · exact Or.inr ⟨by simp, h4⟩
      · exact Or.inr ⟨by simp [h1], h2⟩

theorem po_set_b_filter_ne_nil (rows : List (List (String × Cell)))
    (po : String) (hpo : po ∈ Burnard.po_set_b rows) :
    rows.filter (fun row_b =>
      isSubstrChars po.data (strCell (Burnard.rowGet row_b "BC PO")).data) ≠ [] := by
  obtain ⟨row, hrow, hext⟩ := (po_set_b_spec rows po).mp hpo
  have hsub : isSubstrChars po.data
      (strCell (Burnard.rowGet row "BC PO")).data = true :=
    (isSubstrChars_iff _ _).mpr (Burnard.extract_po_numbers_substring _ _ hext)
  have hmem : row ∈ rows.filter (fun row_b =>
      isSubstrChars po.data (strCell (Burnard.rowGet row_b "BC PO")).data) :=
    List.mem_filter.mpr ⟨hrow, hsub⟩
  exact List.ne_nil_of_mem hmem

/-- C4: every PO extracted from sheet A (a key of `po_map_a`) is
classified into exactly one of the two outputs: it is compared against
sheet B precisely when it belongs to `po_set_b`, it lands in the
unmatched list precisely when it does not, never both and never
neither; entries of the matched-differences report only arise from
compared POs. -/
theorem claim_C4_partition (p : PdToDatetime)
    (rows_a rows_b : List (List (String × Cell))) (po : String)
    (hpo : po ∈ (Burnard.build_po_map rows_a).map Prod.fst) :
    (po ∈ (Burnard.match_loop p (Burnard.build_po_map rows_a) rows_b
        (Burnard.po_set_b rows_b)).compared_pos ↔
      po ∈ Burnard.po_set_b rows_b) ∧
    (po ∈ (Burnard.match_loop p (Burnard.build_po_map rows_a) rows_b
        (Burnard.po_set_b rows_b)).unmatched_pos ↔
      po ∉ Burnard.po_set_b rows_b) ∧
    ¬(po ∈ (Burnard.match_loop p (Burnard.build_po_map rows_a) rows_b
        (Burnard.po_set_b rows_b)).compared_pos ∧
      po ∈ (Burnard.match_loop p (Burnard.build_po_map rows_a) rows_b
        (Burnard.po_set_b rows_b)).unmatched_pos) ∧
    (po ∈ (Burnard.match_loop p (Burnard.build_po_map rows_a) rows_b
        (Burnard.po_set_b rows_b)).compared_pos ∨
      po ∈ (Burnard.match_loop p (Burnard.build_po_map rows_a) rows_b
        (Burnard.po_set_b rows_b)).unmatched_pos) ∧
    (po ∈ ((Burnard.match_loop p (Burnard.build_po_map rows_a) rows_b
        (Burnard.po_set_b rows_b)).matched_differences).map Prod.fst →
      po ∈ (Burnard.match_loop p (Burnard.build_po_map rows_a) rows_b
        (Burnard.po_set_b rows_b)).compared_pos) := by
  have hf := po_set_b_filter_ne_nil rows_b
  obtain ⟨hc, hu, hm⟩ := match_loop_fold_mem p rows_b (Burnard.po_set_b rows_b)
    hf (Burnard.build_po_map rows_a) ⟨[], [], []⟩ po
  unfold Burnard.match_loop
  have hc2 : po ∈ (((Burnard.build_po_map rows_a).foldl
      (Burnard.match_step p rows_b (Burnard.po_set_b rows_b))
      ⟨[], [], []⟩).compared_pos) ↔ po ∈ Burnard.po_set_b rows_b := by
    rw [hc]
    simp [hpo]
  have hu2 : po ∈ (((Burnard.build_po_map rows_a).foldl
      (Burnard.match_step p rows_b (Burnard.po_set_b rows_b))
      ⟨[], [], []⟩).unmatched_pos) ↔ po ∉ Burnard.po_set_b rows_b := by
    rw [hu]
    simp [hpo]
  refine ⟨hc2, hu2, ?_, ?_, ?_⟩
  · rintro ⟨h1, h2⟩
    exact (hu2.mp h2) (hc2.mp h1)
  · by_cases hset : po ∈ Burnard.po_set_b rows_b
    · exact Or.inl (hc2.mpr hset)
    · exact Or.inr (hu2.mpr hset)
  · intro h
    rcases hm h with h1 | ⟨_, h2⟩
    · simp at h1
    · exact hc2.mpr h2

/-- C4 witness: one extracted PO present in sheet B is compared, one
absent PO is unmatched. -/
theorem claim_C4_partition_witness :
    "123456" ∈ (Burnard.match_loop simpleParse
      (Burnard.build_po_map [[("Order #", Cell.s "123456 / 654321")]])
      [[("BC PO", Cell.s "123456")]]
      (Burnard.po_set_b [[("BC PO", Cell.s "123456")]])).compared_pos ∧
    "654321" ∈ (Burnard.match_loop simpleParse
      (Burnard.build_po_map [[("Order #", Cell.s "123456 / 654321")]])
      [[("BC PO", Cell.s "123456")]]
      (Burnard.po_set_b [[("BC PO", Cell.s "123456")]])).unmatched_pos := by
  constructor
  · exact (claim_C4_partition simpleParse
      [[("Order #", Cell.s "123456 / 654321")]] [[("BC PO", Cell.s "123456")]]
      "123456" (by decide)).1.mpr (by decide)
  · exact (claim_C4_partition simpleParse
      [[("Order #", Cell.s "123456 / 654321")]] [[("BC PO", Cell.s "123456")]]
      "654321" (by decide)).2.1.mpr (by decide)

/-! ### Claims C5 and C6 — required columns and header detection -/

/-- C5: when the keyword-based column mapping leaves any of the
required columns `BC PO`, `ETA`, `Container` unmapped, the script stops
with the missing-columns error before header detection, extraction and
comparison, so no report and no unmatched list are produced. -/
theorem claim_C5_missing_columns_halt (p : PdToDatetime)
    (df_b_cols : List String) (df_b_rows : List (List (String × Cell)))
    (df_a_raw : List (List Cell))
    (h : Burnard.missingColumnsOf df_b_cols ≠ []) :
    Burnard.burnard_main p df_b_cols df_b_rows df_a_raw =
      Burnard.Outcome.missingColumns (Burnard.missingColumnsOf df_b_cols) := by
  unfold Burnard.burnard_main
  rw [if_neg]
  simp only [List.isEmpty_iff]
  exact h

/-- C5 witness: an import sheet whose columns only map `BC PO` makes
the script stop with `ETA` and `Container` reported missing. -/
theorem claim_C5_missing_columns_halt_witness :
    Burnard.burnard_main simpleParse ["BC PO Ref", "Qty"] [] [] =
      Burnard.Outcome.missingColumns ["ETA", "Container"] := by
  have h := claim_C5_missing_columns_halt simpleParse ["BC PO Ref", "Qty"] [] []
    (by decide)
  rw [h]
  decide

theorem detect_aux_some_spec (keywords : List String) :
    ∀ (rs : List (List Cell)) (i j : Nat),
      Burnard.detect_header_row_aux keywords i rs = some j →
      i ≤ j ∧ j < 20 ∧ j - i < rs.length ∧
      (∀ row, rs[j - i]? = some row →
        Burnard.headerRowPred keywords row = true) ∧
      (∀ k, i ≤ k → k < j → ∀ row, rs[k - i]? = some row →
        Burnard.headerRowPred keywords row = false) := by
  intro rs
  induction rs with
  | nil =>
    intro i j h
    simp [Burnard.detect_header_row_aux] at h
  | cons r rs ih =>
    intro i j h
    simp only [Burnard.detect_header_row_aux] at h
    split at h
    · cases h
    · split at h
      · rename_i h20 hpred
        injection h with h1
        subst h1
        refine ⟨le_refl i, by omega, by simp, ?_, ?_⟩
        · intro row hrow
          simp only [Nat.sub_self, List.getElem?_cons_zero, Option.some.injEq]
            at hrow
          rw [← hrow]
          exact hpred
        · intro k hk1 hk2
          omega
      · rename_i h20 hpred
        obtain ⟨ha, hb, hc, hd, he⟩ := ih (i + 1) j h
        have hji : j - i = (j - (i + 1)) + 1 := by omega
        refine ⟨by omega, hb, by simp; omega, ?_, ?_⟩
        · intro row hrow
          rw [hji] at hrow
          simp only [List.getElem?_cons_succ] at hrow
          exact hd row hrow
        · intro k hk1 hk2 row hrow
          by_cases hki : k = i
          · subst hki
            simp only [Nat.sub_self, List.getElem?_cons_zero,
              Option.some.injEq] at hrow
            rw [← hrow]
            simpa using hpred
          · have hki2 : k - i = (k - (i + 1)) + 1 := by omega
            rw [hki2] at hrow
            simp only [List.getElem?_cons_succ] at hrow
            exact he k (by omega) hk2 row hrow

theorem detect_aux_none_spec (keywords : List String) :
    ∀ (rs : List (List Cell)) (i : Nat),
      Burnard.detect_header_row_aux keywords i rs = none →
      ∀ k, i ≤ k → k < 20 → ∀ row, rs[k - i]? = some row →
        Burnard.headerRowPred keywords row = false := by
  intro rs
  induction rs with
  | nil =>
    intro i _ k _ _ row hrow
    simp at hrow
  | cons r rs ih =>
    intro i h k hk1 hk2 row hrow
    simp only [Burnard.detect_header_row_aux] at h
    split at h
    · rename_i h20
      omega
    · split at h
      · cases h
      · rename_i h20 hpred
        by_cases hki : k = i
        · subst hki
          simp only [Nat.sub_self, List.getElem?_cons_zero,
            Option.some.injEq] at hrow
          rw [← hrow]
          simpa using hpred
        · have hki2 : k - i = (k - (i + 1)) + 1 := by omega
          rw [hki2] at hrow
          simp only [List.getElem?_cons_succ] at hrow
          exact ih (i + 1) h k (by omega) hk2 row hrow

/-- C6: `detect_header_row` examines at most the first twenty rows and
returns the smallest index whose stringified, stripped cells contain
every keyword; it returns `None` when no examined row qualifies, and in
that case the script (with the required columns present) stops with the
header error instead of comparing. -/
theorem claim_C6_detect_header (df : List (List Cell)) (keywords : List String) :
    (∀ i, Burnard.detect_header_row df keywords = some i →
      i < min 20 df.length ∧
      (∀ row, df[i]? = some row →
        Burnard.headerRowPred keywords row = true) ∧
      (∀ j, j < i → ∀ row, df[j]? = some row →
        Burnard.headerRowPred keywords row = false)) ∧
    (Burnard.detect_header_row df keywords = none →
      ∀ i, i < min 20 df.length → ∀ row, df[i]? = some row →
        Burnard.headerRowPred keywords row = false) ∧
    (∀ (p : PdToDatetime) (cols : List String)
      (rows : List (List (String × Cell))),
      Burnard.missingColumnsOf cols = [] →
      Burnard.detect_header_row df ["Order #", "Supplier"] = none →
      Burnard.burnard_main p cols rows df = Burnard.Outcome.headerNotFound) := by
  refine ⟨?_, ?_, ?_⟩
  · intro i h
    obtain ⟨_, hb, hc, hd, he⟩ := detect_aux_some_spec keywords df 0 i h
    simp only [Nat.sub_zero] at hc hd he
    refine ⟨by omega, hd, ?_⟩
    intro j hj row hrow
    have := he j (by omega) hj row
    simpa using this hrow
  · intro h i hi row hrow
    have := detect_aux_none_spec keywords df 0 h i (by omega) (by omega) row
    simpa using this hrow
  · intro p cols rows h1 h2
    unfold Burnard.burnard_main
    rw [if_pos (by simp [h1])]
    rw [h2]

/-- C6 witness: on a sheet whose single row lacks the keywords the
script ends with the header error, and that row indeed fails the
predicate. -/
theorem claim_C6_detect_header_witness :
    Burnard.burnard_main simpleParse ["bc po x", "eta", "container"] []
        [[Cell.s "no header"]] = Burnard.Outcome.headerNotFound ∧
    Burnard.headerRowPred ["Order #", "Supplier"] [Cell.s "no header"] = false := by
  have h := claim_C6_detect_header [[Cell.s "no header"]] ["Order #", "Supplier"]
  constructor
  · exact h.2.2 simpleParse ["bc po x", "eta", "container"] [] (by decide)
      (by decide)
  · exact h.2.1 (by decide) 0 (by decide) [Cell.s "no header"] (by decide)

/-! ### Claim C8 — `load_import_df` keeps the last occurrence per PO -/

namespace EtaDiscrepancy

/-- One parsed worksheet of the import workbook, with its column names
and the cells of the `BC PO` / `Estimated Arrival` columns per row. -/
structure ImportSheet where
  name : String
  cols : List String
  rows : List (Cell × Cell)
deriving Repr

/-- A record of the frame returned by `load_import_df`. -/
structure ImpRow where
  po_num : String
  imp_date : Option PyDate
  sheet : String
deriving DecidableEq, Repr

/-- The case-insensitive column check of `load_import_df`. -/
def sheetHasCols (s : ImportSheet) : Bool :=
  (s.cols.any (fun c => pyLower (pyStrip c) == "bc po")) &&
    (s.cols.any (fun c => pyLower (pyStrip c) == "estimated arrival"))

/-- Expand one worksheet's rows: each `BC PO` cell may yield several
POs, all sharing the row's coerced ETA date. -/
def sheetRows (p : PdToDatetime) (s : ImportSheet) : List ImpRow :=
  s.rows.foldr (fun rc acc =>
    let po_values := split_bc_po_value rc.1
    if po_values.isEmpty then acc
    else
      let eta_date := (p.toFun rc.2).map (fun dt => dt.date)
      (po_values.map (fun po => ⟨po, eta_date, s.name⟩)) ++ acc) []

/-- All expanded records, in sheet order then row order (sheets without
the required columns, and empty sheets, are skipped). -/
def allImportRows (p : PdToDatetime) (sheets : List ImportSheet) : List ImpRow :=
  sheets.foldr (fun s acc =>
    if s.rows.isEmpty then acc
    else if sheetHasCols s then sheetRows p s ++ acc else acc) []

/-- `sort_values("row_order").groupby("PO_num").tail(1)`: keep a row
exactly when its PO does not occur again later. -/
def keepLast : List ImpRow → List ImpRow
  | [] => []
  | r :: rs =>
    if rs.any (fun r2 => r2.po_num == r.po_num) then keepLast rs
    else r :: keepLast rs

/-- `load_import_df`: error when no sheet contributed rows, else the
last-occurrence-per-PO frame. -/
def load_import_df (p : PdToDatetime) (sheets : List ImportSheet) :
    Except String (List ImpRow) :=
  let rows := allImportRows p sheets
  if rows.isEmpty then
    Except.error "Could not find usable columns or PO numbers"
  else Except.ok (keepLast rows)

theorem keepLast_subset : ∀ (rows : List ImpRow) (r : ImpRow),
    r ∈ keepLast rows → r ∈ rows := by
  intro rows
  induction rows with
  | nil => intro r h; simp [keepLast] at h
  | cons x xs ih =>
    intro r h
    simp only [keepLast] at h
    split at h
    · exact List.mem_cons_of_mem x (ih r h)
    · rcases List.mem_cons.mp h with h1 | h2
      · rw [h1]
        exact List.mem_cons_self _ _
      · exact List.mem_cons_of_mem x (ih r h2)

theorem keepLast_nodup : ∀ rows : List ImpRow,
    ((keepLast rows).map (fun r => r.po_num)).Nodup := by
  intro rows
  induction rows with
  | nil => simp [keepLast]
  | cons x xs ih =>
    simp only [keepLast]
    split
    · exact ih
    · rename_i hany
      simp only [List.map_cons, List.nodup_cons]
      refine ⟨?_, ih⟩
      intro hmem
      obtain ⟨r2, hr2, hpo⟩ := List.mem_map.mp hmem
      apply hany
      rw [List.any_eq_true]
      exact ⟨r2, keepLast_subset xs r2 hr2, by simp [hpo]⟩

theorem keepLast_find? (po : String) : ∀ rows : List ImpRow,
    (keepLast rows).find? (fun r => r.po_num == po) =
      rows.reverse.find? (fun r => r.po_num == po) := by
  intro rows
  induction rows with
  | nil => rfl
  | cons x xs ih =>
    simp only [keepLast, List.reverse_cons, List.find?_append]
    split
    · rename_i hany
      rw [ih]
      by_cases hpo : x.po_num = po
      · obtain ⟨r2, hr2, hbeq⟩ := List.any_eq_true.mp hany
        have hr2po : ((fun r => r.po_num == po) r2) = true := by
          have h2 := beq_iff_eq.mp hbeq
          simp [h2, hpo]
        have hne : xs.reverse.find? (fun r => r.po_num == po) ≠ none := by
          intro hnone
          exact (List.find?_eq_none.mp hnone r2 (by simp [hr2])) hr2po
        cases hfind : xs.reverse.find? (fun r => r.po_num == po) with
        | none => exact absurd hfind hne
        | some y => rfl
      · cases hfind : xs.reverse.find? (fun r => r.po_num == po) with
        | none =>
          rw [Option.none_or]
          rw [List.find?_cons_of_neg _ (by simp [hpo]), List.find?_nil]
        | some y => rfl
    · rename_i hany
      by_cases hpo : x.po_num = po
      · have hnone : xs.reverse.find? (fun r => r.po_num == po) = none := by
          rw [List.find?_eq_none]
          intro r2 hr2 hbeq
          apply hany
          rw [List.any_eq_true]
          refine ⟨r2, by simpa using hr2, ?_⟩
          have h2 := beq_iff_eq.mp hbeq
          simp [h2, hpo]
        rw [hnone, Option.none_or]
        rw [List.find?_cons_of_pos _ (by simp [hpo]),
          List.find?_cons_of_pos _ (by simp [hpo])]
      · rw [List.find?_cons_of_neg _ (by simp [hpo]), ih]
        cases hfind : xs.reverse.find? (fun r => r.po_num == po) with
        | none =>
          rw [Option.none_or]
          rw [List.find?_cons_of_neg _ (by simp [hpo]), List.find?_nil]
        | some y => rfl

/-- C8: on success `load_import_df` returns at most one record per PO:
the PO column of the result is duplicate-free, every returned record is
one of the expanded input records, and for every PO the returned record
is the last expanded record with that PO in sheet order then row order
(the first hit scanning the reversed expansion). -/
theorem claim_C8_load_import_last_wins (p : PdToDatetime)
    (sheets : List ImportSheet) (res : List ImpRow)
    (h : load_import_df p sheets = Except.ok res) :
    ((res.map (fun r => r.po_num)).Nodup) ∧
    (∀ r ∈ res, r ∈ allImportRows p sheets) ∧
    (∀ po, res.find? (fun r => r.po_num == po) =
      (allImportRows p sheets).reverse.find? (fun r => r.po_num == po)) := by
  unfold load_import_df at h
  dsimp only at h
  split at h
  · cases h
  · injection h with h1
    subst h1
    exact ⟨keepLast_nodup _, keepLast_subset _,
      fun po => keepLast_find? po _⟩

end EtaDiscrepancy

/-- C8 witness: a two-sheet workbook in which PO `107977` occurs three
times; the returned frame holds it once, with the ETA and sheet of the
last occurrence. -/
theorem claim_C8_load_import_last_wins_witness :
    EtaDiscrepancy.load_import_df simpleParse
        [⟨"01.2026", ["BC PO", "Estimated Arrival"],
          [(Cell.s "107977/108000", Cell.dt ⟨⟨2026, 1, 5⟩, 0⟩)]⟩,
         ⟨"02.2026", ["bc po ", "estimated arrival"],
          [(Cell.s "107977", Cell.dt ⟨⟨2026, 2, 9⟩, 0⟩)]⟩] =
      Except.ok [⟨"108000", some ⟨2026, 1, 5⟩, "01.2026"⟩,
        ⟨"107977", some ⟨2026, 2, 9⟩, "02.2026"⟩] ∧
    (([⟨"108000", some ⟨2026, 1, 5⟩, "01.2026"⟩,
        ⟨"107977", some ⟨2026, 2, 9⟩, "02.2026"⟩] :
        List EtaDiscrepancy.ImpRow).map (fun r => r.po_num)).Nodup := by
  constructor
  · rfl
  · exact (EtaDiscrepancy.claim_C8_load_import_last_wins simpleParse
      [⟨"01.2026", ["BC PO", "Estimated Arrival"],
        [(Cell.s "107977/108000", Cell.dt ⟨⟨2026, 1, 5⟩, 0⟩)]⟩,
       ⟨"02.2026", ["bc po ", "estimated arrival"],
        [(Cell.s "107977", Cell.dt ⟨⟨2026, 2, 9⟩, 0⟩)]⟩]
      [⟨"108000", some ⟨2026, 1, 5⟩, "01.2026"⟩,
        ⟨"107977", some ⟨2026, 2, 9⟩, "02.2026"⟩] (by rfl)).1
